import Mathlib

/-!
Verification development for the leo-backend knowledge-ingestion and
retrieval engine.  The four verified components are embedded shallowly:

* the re-ingestion cost model
  (`services/file-charging.service` : `calculateFileCharge`,
  `calculateStringHashSimilarity`, `tokensTopu`);
* hybrid retrieval fusion (`services/hybrid-search.service` :
  `HybridSearchService.search`);
* the conversation memory compactor (`agent-runtime` : `MemoryManager`);
* the sentence-aware chunker (`services/chunking` : `smartSplitText`,
  `splitLongSentence`, `tokenizeSentences`, `tokenizeParagraphs`).

JavaScript numbers are modelled by `Rat` (exact arithmetic), strings by
`String` or `List Char`, database tables by lists of records, and the
external collaborators (SHA-256, the LLM completion service, the two
sub-search backends) by function/value parameters.
-/

set_option autoImplicit false

namespace LeoSpec

/-! ## Re-ingestion cost model (part_006: file charging service) -/

/-- One row of the `file_processing_cache` table.  Only the columns read by
`calculateFileCharge` are modelled.  The list holding these records is
ordered most-recent-first, so that `List.find?` realises
`ORDER BY created_at DESC LIMIT 1`. -/
structure CacheRecord where
  agentId : String
  filename : String
  contentHash : String
  deriving Repr, DecidableEq

/-- An element of the `contentChunks` argument (`Array<{ text: string }>`). -/
structure ChunkText where
  text : String
  deriving Repr, DecidableEq

/-- The result record of `calculateFileCharge`. -/
structure ChargeResult where
  puCost : Rat
  reason : String
  chargePercentage : Nat
  deriving Repr, DecidableEq

/-- `tokensTopu(tokens) = tokens / 1000` (1 PU = 1000 tokens). -/
def tokensTopu (tokens : Rat) : Rat := tokens / 1000

/-- Kernel-computable floor of a rational (`⌊x⌋ = x.num / x.den`,
cf. `Rat.floor_def`). -/
def ratFloor (x : Rat) : Int := x.num / (x.den : Int)

/-- JavaScript `Math.ceil` on the exact rational value (`⌈x⌉ = -⌊-x⌋`). -/
def jsCeil (x : Rat) : Int := -ratFloor (-x)

/-- JavaScript `Math.round` on the exact rational value (`⌊x + 1/2⌋`). -/
def jsRound (x : Rat) : Int := ratFloor (x + 1 / 2)

/-- Count positions where the two strings differ, over the first `minLen`
characters (the loop `for i < minLen: if hash1[i] !== hash2[i]) differences++`). -/
def countMismatches : List Char → List Char → Nat
  | [], _ => 0
  | _, [] => 0
  | a :: as, b :: bs => (if a = b then 0 else 1) + countMismatches as bs

/-- `calculateStringHashSimilarity(hash1, hash2)`: character-wise comparison
of the two digests, adjusted by the length difference, scaled to 0..100 and
rounded. -/
def calculateStringHashSimilarity (hash1 hash2 : String) : Rat :=
  if hash1 = hash2 then 100
  else
    let minLen : Nat := min hash1.length hash2.length
    let differences : Nat :=
      countMismatches hash1.data hash2.data +
        (max hash1.length hash2.length - minLen)
    let similarity : Rat := max 0 (100 - ((differences : Rat) / (minLen : Rat)) * 100)
    (jsRound similarity : Int)

/-- `content = contentChunks.map(c => c.text).join('\n')`. -/
def chargeContent (contentChunks : List ChunkText) : String :=
  String.intercalate "\n" (contentChunks.map (·.text))

/-- `Math.ceil((content.length / 4) * 1.3)`: the token estimate used by
`calculateFileCharge`. -/
def estimatedTokensOf (len : Nat) : Int := jsCeil (((len : Rat) / 4) * (13 / 10))

/-- Shallow embedding of `calculateFileCharge(agentId, filename, contentChunks)`.

The SHA-256 collaborator is the parameter `hash`; the
`file_processing_cache` table is the parameter `cache` (most recent row
first).  The two `await query(...)` calls become `List.find?` over `cache`:
the first filtered by `(agent_id, content_hash)`, the second by
`(agent_id, filename)`. -/
def calculateFileCharge (hash : String → String) (cache : List CacheRecord)
    (agentId filename : String) (contentChunks : List ChunkText) : ChargeResult :=
  let content := chargeContent contentChunks
  let contentHash := hash content
  if (cache.find? fun r => r.agentId == agentId && r.contentHash == contentHash).isSome then
    { puCost := 0, reason := "DUPLICATE: File already processed", chargePercentage := 0 }
  else
    let estimatedTokens : Int := estimatedTokensOf content.length
    match cache.find? fun r => r.agentId == agentId && r.filename == filename with
    | none =>
        { puCost := tokensTopu (estimatedTokens : Rat)
          reason := "NEW_FILE: First upload of this document"
          chargePercentage := 100 }
    | some prev =>
        let similarity := calculateStringHashSimilarity prev.contentHash contentHash
        let diffPercent : Rat := 100 - similarity
        let chargePercent : Nat := if diffPercent < 30 then 20 else if diffPercent < 60 then 70 else 100
        let chargeReason : String :=
          if diffPercent < 30 then "MINOR_UPDATE" else if diffPercent < 60 then "MAJOR_UPDATE" else "FULL_REPLACEMENT"
        let basePuCost := tokensTopu (estimatedTokens : Rat)
        { puCost := basePuCost * (chargePercent : Rat) / 100
          reason := chargeReason ++ ": " ++ toString (jsRound diffPercent) ++ "% content changed"
          chargePercentage := chargePercent }

/-! ## Hybrid retrieval fusion (part_004: HybridSearchService.search) -/

/-- Result shape of `chromaService.searchDocuments` (only the fields read by
`search` are modelled; `metadata` is modelled as an association list). -/
structure VectorResult where
  content : String
  metadata : List (String × String)
  deriving Repr, DecidableEq

/-- Result shape of `ftsService.searchDocuments` (fields read by `search`). -/
structure FtsResult where
  id : String
  content : String
  knowledgeBaseId : String
  deriving Repr, DecidableEq

/-- The `source` tag of a fused result. -/
inductive FuseSource where
  | vector
  | fts
  | both
  deriving Repr, DecidableEq

/-- `HybridSearchResult`. -/
structure HybridSearchResult where
  id : String
  content : String
  score : Rat
  source : FuseSource
  metadata : List (String × String)
  deriving Repr, DecidableEq

/-- `rrfScore = 1 / (60 + rank + 1)` (Reciprocal Rank Fusion, k = 60). -/
def rrfScore (rank : Nat) : Rat := 1 / (60 + (rank : Rat) + 1)

/-- Update the first list entry satisfying `p` (the JS `Map` holds at most one
entry per content key, and mutation updates exactly that entry). -/
def updateFirstBy {α : Type} (p : α → Bool) (f : α → α) : List α → List α
  | [] => []
  | x :: xs => if p x then f x :: xs else x :: updateFirstBy p f xs

/-- One step of the `vectorResults.forEach((result, rank) => ...)` loop.
The insertion-ordered JS `Map<string, HybridSearchResult>` is modelled as a
list of entries with distinct `content` keys, in insertion order. -/
def addVectorResult (rank : Nat) (result : VectorResult)
    (resultMap : List HybridSearchResult) : List HybridSearchResult :=
  if resultMap.any fun e => e.content == result.content then
    updateFirstBy (fun e => e.content == result.content)
      (fun e => { e with score := e.score + rrfScore rank, source := .both }) resultMap
  else
    resultMap ++ [{ id := "vector_" ++ toString rank, content := result.content,
                    score := rrfScore rank, source := .vector, metadata := result.metadata }]

/-- One step of the `ftsResults.forEach((result, rank) => ...)` loop. -/
def addFtsResult (rank : Nat) (result : FtsResult)
    (resultMap : List HybridSearchResult) : List HybridSearchResult :=
  if resultMap.any fun e => e.content == result.content then
    updateFirstBy (fun e => e.content == result.content)
      (fun e =>
        { e with
          score := e.score + rrfScore rank
          source := .both
          metadata := e.metadata ++ [("knowledgeBaseId", result.knowledgeBaseId)] }) resultMap
  else
    resultMap ++ [{ id := result.id, content := result.content,
                    score := rrfScore rank, source := .fts,
                    metadata := [("knowledgeBaseId", result.knowledgeBaseId)] }]

/-- `forEach` with the 0-based rank argument. -/
def addAll {β : Type} (add : Nat → β → List HybridSearchResult → List HybridSearchResult) :
    Nat → List β → List HybridSearchResult → List HybridSearchResult
  | _, [], m => m
  | rank, r :: rs, m => addAll add (rank + 1) rs (add rank r m)

/-- The fused result map built by the two `forEach` loops, starting empty. -/
def fusedMap (vectorResults : List VectorResult) (ftsResults : List FtsResult) :
    List HybridSearchResult :=
  addAll addFtsResult 0 ftsResults (addAll addVectorResult 0 vectorResults [])

/-- Descending-score order used by `.sort((a, b) => b.score - a.score)`.
JS `Array.prototype.sort` is stable, as is `List.insertionSort`, and for a
total preorder all stable sorts agree. -/
def byScoreDesc (a b : HybridSearchResult) : Prop := b.score ≤ a.score

instance : DecidableRel byScoreDesc := fun a b => inferInstanceAs (Decidable (b.score ≤ a.score))

/-- `Promise.all([...].catch(() => []))`: a rejected sub-search degrades to an
empty partial result. -/
def recover {α : Type} : Except Unit (List α) → List α
  | .ok l => l
  | .error _ => []

/-- Shallow embedding of `HybridSearchService.search`.  The two sub-searches
are inputs: `.error ()` models a rejected promise, `.ok rs` a successful
response. -/
def hybridSearch (vectorOutcome : Except Unit (List VectorResult))
    (ftsOutcome : Except Unit (List FtsResult)) (limit : Nat) : List HybridSearchResult :=
  let m := fusedMap (recover vectorOutcome) (recover ftsOutcome)
  (m.insertionSort byScoreDesc).take limit

/-! ## Conversation memory compactor (agent-runtime: MemoryManager) -/

/-- `MessageType`. -/
inductive MessageType where
  | HUMAN
  | AI
  | TOOL
  | SYSTEM
  deriving Repr, DecidableEq

/-- One row of `agent_messages`.  `id` models the generated cuid; rows are
kept in `created_at` order (oldest first). -/
structure MsgRec where
  id : Nat
  agentId : String
  telegramUserId : Int
  messageType : MessageType
  content : String
  deriving Repr, DecidableEq

/-- One row of `agent_summaries` (oldest first). -/
structure SummaryRec where
  id : Nat
  agentId : String
  telegramUserId : Int
  summary : String
  deriving Repr, DecidableEq

/-- The persistent store seen by `MemoryManager`, plus a fresh-id counter
modelling `generateCuid` (cuids are assumed collision-free). -/
structure MemoryState where
  messages : List MsgRec
  summaries : List SummaryRec
  nextId : Nat
  deriving Repr, DecidableEq

/-- Memory configuration (`config.maxMessages`, `config.keepMessages`). -/
structure MemoryConfig where
  maxMessages : Nat
  keepMessages : Nat
  deriving Repr, DecidableEq

/-- Does a message row belong to the session `(agentId, telegramUserId)`? -/
def inSession (agentId : String) (userId : Int) (m : MsgRec) : Bool :=
  m.agentId == agentId && m.telegramUserId == userId

/-- `getRecentMessages`: the session rows, most recent `limit` of them,
returned in chronological order (`ORDER BY created_at DESC LIMIT n` then
`reverse()`). -/
def getRecentMessages (st : MemoryState) (agentId : String) (userId : Int)
    (limit : Nat) : List MsgRec :=
  (((st.messages.filter (inSession agentId userId)).reverse.take limit)).reverse

/-- JS `arr.slice(-k)`.  Note `slice(-0)` is `slice(0)`, the whole array. -/
def jsSliceLast {α : Type} (l : List α) (k : Nat) : List α :=
  if k = 0 then l else l.drop (l.length - k)

/-- `summarizeAndCleanup`.  The gateway completion call is the parameter
`summarize`: `none` models a thrown/failed request or a response with no
summary text (both leave the store untouched), `some s` a successful
summary. -/
def summarizeAndCleanup (cfg : MemoryConfig) (summarize : List MsgRec → Option String)
    (agentId : String) (userId : Int) (st : MemoryState) : MemoryState :=
  let messages := getRecentMessages st agentId userId cfg.maxMessages
  if messages.length < cfg.maxMessages then st
  else
    match summarize messages with
    | none => st
    | some summary =>
        let st1 : MemoryState :=
          { st with
            summaries := st.summaries ++ [{ id := st.nextId, agentId := agentId,
                                            telegramUserId := userId, summary := summary }]
            nextId := st.nextId + 1 }
        let idsToKeep := (jsSliceLast messages cfg.keepMessages).map (·.id)
        if idsToKeep.isEmpty then st1
        else
          { st1 with
            messages := st1.messages.filter fun m =>
              !(inSession agentId userId m) || idsToKeep.contains m.id }

/-- `checkAndSummarize`: count the session rows and compact when the count
reaches `maxMessages`. -/
def checkAndSummarize (cfg : MemoryConfig) (summarize : List MsgRec → Option String)
    (agentId : String) (userId : Int) (st : MemoryState) : MemoryState :=
  let count := (st.messages.filter (inSession agentId userId)).length
  if count ≥ cfg.maxMessages then summarizeAndCleanup cfg summarize agentId userId st
  else st

/-- `saveMessage`: insert the inbound message, then run the compaction
check. -/
def saveMessage (cfg : MemoryConfig) (summarize : List MsgRec → Option String)
    (agentId : String) (userId : Int) (messageType : MessageType) (content : String)
    (st : MemoryState) : MemoryState :=
  let newMsg : MsgRec := { id := st.nextId, agentId := agentId, telegramUserId := userId,
                           messageType := messageType, content := content }
  let st1 : MemoryState := { st with messages := st.messages ++ [newMsg], nextId := st.nextId + 1 }
  checkAndSummarize cfg summarize agentId userId st1

/-! ## Theorems: re-ingestion cost model -/

/-- Shared helper: an exact `(agentId, contentHash)` cache hit short-circuits
to the free duplicate result. -/
theorem calculateFileCharge_duplicate (hash : String → String) (cache : List CacheRecord)
    (agentId filename : String) (chunks : List ChunkText)
    (h : ∃ r ∈ cache, r.agentId = agentId ∧ r.contentHash = hash (chargeContent chunks)) :
    calculateFileCharge hash cache agentId filename chunks =
      { puCost := 0, reason := "DUPLICATE: File already processed", chargePercentage := 0 } := by
  unfold calculateFileCharge
  have hsome : (cache.find? fun r =>
      r.agentId == agentId && r.contentHash == hash (chargeContent chunks)).isSome := by
    rw [List.find?_isSome]
    obtain ⟨r, hr, h1, h2⟩ := h
    exact ⟨r, hr, by simp [h1, h2]⟩
  simp only [hsome, if_true]

/-- C3: an exact `(agentId, contentHash)` match in the version cache makes
`calculateFileCharge` return `puCost = 0`, `chargePercentage = 0` and the
duplicate reason, for every filename and chunk list. -/
theorem claim3_duplicate_free (hash : String → String) (cache : List CacheRecord)
    (agentId filename : String) (chunks : List ChunkText)
    (h : ∃ r ∈ cache, r.agentId = agentId ∧ r.contentHash = hash (chargeContent chunks)) :
    (calculateFileCharge hash cache agentId filename chunks).puCost = 0 ∧
      (calculateFileCharge hash cache agentId filename chunks).chargePercentage = 0 ∧
      (calculateFileCharge hash cache agentId filename chunks).reason =
        "DUPLICATE: File already processed" := by
  rw [calculateFileCharge_duplicate hash cache agentId filename chunks h]
  exact ⟨rfl, rfl, rfl⟩

theorem claim3_duplicate_free_witness :
    (calculateFileCharge (fun s => s) [⟨"A", "f", "text"⟩] "A" "f" [⟨"text"⟩]).puCost = 0 ∧
      (calculateFileCharge (fun s => s) [⟨"A", "f", "text"⟩] "A" "f" [⟨"text"⟩]).chargePercentage = 0 ∧
      (calculateFileCharge (fun s => s) [⟨"A", "f", "text"⟩] "A" "f" [⟨"text"⟩]).reason =
        "DUPLICATE: File already processed" :=
  claim3_duplicate_free (fun s => s) [⟨"A", "f", "text"⟩] "A" "f" [⟨"text"⟩]
    ⟨⟨"A", "f", "text"⟩, by simp, rfl, by decide⟩

/-- C10: the duplicate check keys only on `(agentId, contentHash)`: even when
the uploaded filename differs from every filename ever ingested for the
agent, a content-hash hit is still charged nothing. -/
theorem claim10_duplicate_ignores_filename (hash : String → String) (cache : List CacheRecord)
    (agentId filename : String) (chunks : List ChunkText)
    (h : ∃ r ∈ cache, r.agentId = agentId ∧ r.contentHash = hash (chargeContent chunks))
    (_hfn : ∀ r ∈ cache, r.agentId = agentId → r.filename ≠ filename) :
    (calculateFileCharge hash cache agentId filename chunks).puCost = 0 ∧
      (calculateFileCharge hash cache agentId filename chunks).chargePercentage = 0 := by
  rw [calculateFileCharge_duplicate hash cache agentId filename chunks h]
  exact ⟨rfl, rfl⟩

theorem claim10_duplicate_ignores_filename_witness :
    (calculateFileCharge (fun s => s) [⟨"A", "f", "text"⟩] "A" "g" [⟨"text"⟩]).puCost = 0 ∧
      (calculateFileCharge (fun s => s) [⟨"A", "f", "text"⟩] "A" "g" [⟨"text"⟩]).chargePercentage = 0 :=
  claim10_duplicate_ignores_filename (fun s => s) [⟨"A", "f", "text"⟩] "A" "g" [⟨"text"⟩]
    ⟨⟨"A", "f", "text"⟩, by simp, rfl, by decide⟩
    (by intro r hr _; simp at hr; simp [hr])

/-- C2 fails as stated: the code estimates tokens as
`Math.ceil((L / 4) * 1.3)`, not `L / 4`.  A first-ever upload of 40
characters is charged `13 / 1000` PU, not `(40 / 4) / 1000 = 10 / 1000`
PU. -/
theorem claim2_counterexample :
    (calculateFileCharge (fun s => s) [] "A" "f"
        [⟨"aaaaaaaaaaaaaaaaaaaaaaaaaaaaaaaaaaaaaaaa"⟩]).puCost = 13 / 1000 ∧
      ¬((calculateFileCharge (fun s => s) [] "A" "f"
          [⟨"aaaaaaaaaaaaaaaaaaaaaaaaaaaaaaaaaaaaaaaa"⟩]).puCost = ((40 : Rat) / 4) / 1000) := by
  constructor
  · with_unfolding_all rfl
  · rw [show (calculateFileCharge (fun s => s) [] "A" "f"
        [⟨"aaaaaaaaaaaaaaaaaaaaaaaaaaaaaaaaaaaaaaaa"⟩]).puCost = 13 / 1000 from by
          with_unfolding_all rfl]
    norm_num

/-- C2, amended: the token estimate is `⌈(L / 4) × 1.3⌉`; the base cost is
`tokens / 1000` PU and `puCost = base × chargePercentage / 100` in every
branch; a first-ever upload (no cache rows for the agent) costs
`⌈(L / 4) × 1.3⌉ / 1000` PU at `chargePercentage = 100`. -/
theorem claim2_amended_charge_formula (hash : String → String) (cache : List CacheRecord)
    (agentId filename : String) (chunks : List ChunkText) :
    (calculateFileCharge hash cache agentId filename chunks).puCost =
        tokensTopu (estimatedTokensOf (chargeContent chunks).length : Rat) *
          ((calculateFileCharge hash cache agentId filename chunks).chargePercentage : Rat) / 100 ∧
      ((∀ r ∈ cache, r.agentId ≠ agentId) →
        (calculateFileCharge hash cache agentId filename chunks).puCost =
            tokensTopu (estimatedTokensOf (chargeContent chunks).length : Rat) ∧
          (calculateFileCharge hash cache agentId filename chunks).chargePercentage = 100) := by
  constructor
  · simp only [calculateFileCharge]
    cases hdup : (cache.find? fun r =>
        r.agentId == agentId && r.contentHash == hash (chargeContent chunks))
    · simp only [hdup, Option.isSome_none, Bool.false_eq_true, if_false]
      cases hprev : (cache.find? fun r => r.agentId == agentId && r.filename == filename)
      · simp only [hprev]
        push_cast
        ring
      · simp only [hprev]
    · simp only [hdup, Option.isSome_some, if_true]
      simp
  · intro hnone
    have h1 : (cache.find? fun r =>
        r.agentId == agentId && r.contentHash == hash (chargeContent chunks)) = none := by
      rw [List.find?_eq_none]
      intro r hr
      simp [hnone r hr]
    have h2 : (cache.find? fun r => r.agentId == agentId && r.filename == filename) = none := by
      rw [List.find?_eq_none]
      intro r hr
      simp [hnone r hr]
    unfold calculateFileCharge
    simp [h1, h2]

theorem claim2_amended_charge_formula_witness :
    ((calculateFileCharge (fun s => s) [] "A" "f" [⟨"abcd"⟩]).puCost =
        tokensTopu (estimatedTokensOf (chargeContent [⟨"abcd"⟩]).length : Rat) *
          (((calculateFileCharge (fun s => s) [] "A" "f" [⟨"abcd"⟩]).chargePercentage : Rat)) / 100) ∧
      (calculateFileCharge (fun s => s) [] "A" "f" [⟨"abcd"⟩]).puCost =
          tokensTopu (estimatedTokensOf (chargeContent [⟨"abcd"⟩]).length : Rat) ∧
        (calculateFileCharge (fun s => s) [] "A" "f" [⟨"abcd"⟩]).chargePercentage = 100 :=
  ⟨(claim2_amended_charge_formula (fun s => s) [] "A" "f" [⟨"abcd"⟩]).1,
    (claim2_amended_charge_formula (fun s => s) [] "A" "f" [⟨"abcd"⟩]).2 (by simp)⟩

/-- C4: when there is no exact duplicate but a previous version exists for
`(agentId, filename)`, the charge tier is derived from
`diffPercent = 100 - calculateStringHashSimilarity(previousHash, newHash)`:
below 30 ⇒ 20 %, below 60 ⇒ 70 %, otherwise 100 %, and
`puCost = base × chargePercentage / 100`. -/
theorem claim4_similarity_tiering (hash : String → String) (cache : List CacheRecord)
    (agentId filename : String) (chunks : List ChunkText) (prev : CacheRecord)
    (hdup : ∀ r ∈ cache, r.agentId = agentId → r.contentHash ≠ hash (chargeContent chunks))
    (hprev : (cache.find? fun r => r.agentId == agentId && r.filename == filename) = some prev) :
    (calculateFileCharge hash cache agentId filename chunks).chargePercentage =
        (if 100 - calculateStringHashSimilarity prev.contentHash (hash (chargeContent chunks)) < 30
          then 20
          else if 100 - calculateStringHashSimilarity prev.contentHash (hash (chargeContent chunks)) < 60
            then 70 else 100) ∧
      (calculateFileCharge hash cache agentId filename chunks).puCost =
        tokensTopu (estimatedTokensOf (chargeContent chunks).length : Rat) *
          ((calculateFileCharge hash cache agentId filename chunks).chargePercentage : Rat) / 100 := by
  have h1 : (cache.find? fun r =>
      r.agentId == agentId && r.contentHash == hash (chargeContent chunks)) = none := by
    rw [List.find?_eq_none]
    intro r hr
    by_cases ha : r.agentId = agentId
    · simp [hdup r hr ha]
    · simp [ha]
  constructor
  · simp only [calculateFileCharge, h1, Option.isSome_none, Bool.false_eq_true, if_false, hprev]
  · simp only [calculateFileCharge, h1, Option.isSome_none, Bool.false_eq_true, if_false, hprev]

theorem claim4_similarity_tiering_witness :
    ((calculateFileCharge (fun s => s) [⟨"A", "f", "aaaa"⟩] "A" "f" [⟨"aaab"⟩]).chargePercentage =
        (if 100 - calculateStringHashSimilarity "aaaa" ((fun (s : String) => s) (chargeContent [⟨"aaab"⟩])) < 30
          then 20
          else if 100 - calculateStringHashSimilarity "aaaa" ((fun (s : String) => s) (chargeContent [⟨"aaab"⟩])) < 60
            then 70 else 100) ∧
      (calculateFileCharge (fun s => s) [⟨"A", "f", "aaaa"⟩] "A" "f" [⟨"aaab"⟩]).puCost =
        tokensTopu (estimatedTokensOf (chargeContent [⟨"aaab"⟩]).length : Rat) *
          ((calculateFileCharge (fun s => s) [⟨"A", "f", "aaaa"⟩] "A" "f" [⟨"aaab"⟩]).chargePercentage : Rat) / 100) :=
  claim4_similarity_tiering (fun s => s) [⟨"A", "f", "aaaa"⟩] "A" "f" [⟨"aaab"⟩] ⟨"A", "f", "aaaa"⟩
    (by intro r hr _; simp at hr; simp [hr]; decide)
    (by decide)

/-! ## Theorems: hybrid retrieval fusion -/

/-- The reciprocal-rank contribution of content `c` accumulated by the
`forEach` loop over one source list, starting at rank `k`. -/
def rrfContrib {β : Type} (content : β → String) (c : String) : Nat → List β → Rat
  | _, [] => 0
  | k, r :: rs => (if content r = c then rrfScore k else 0) + rrfContrib content c (k + 1) rs

/-- The fused score of content `c` in a result map (0 when absent). -/
def scoreOf (m : List HybridSearchResult) (c : String) : Rat :=
  match m.find? fun e => e.content == c with
  | some e => e.score
  | none => 0

theorem rrfScore_pos (k : Nat) : 0 < rrfScore k := by
  unfold rrfScore
  positivity

theorem rrfScore_le_rrfScore {k j : Nat} (h : k ≤ j) : rrfScore j ≤ rrfScore k := by
  unfold rrfScore
  have hk : ((k : Rat)) ≤ (j : Rat) := by exact_mod_cast h
  apply one_div_le_one_div_of_le
  · positivity
  · linarith

theorem rrfContrib_nonneg {β : Type} (content : β → String) (c : String) (k : Nat)
    (l : List β) : 0 ≤ rrfContrib content c k l := by
  induction l generalizing k with
  | nil => simp [rrfContrib]
  | cons x xs ih =>
      simp only [rrfContrib]
      have h1 : (0 : Rat) ≤ if content x = c then rrfScore k else 0 := by
        split
        · exact le_of_lt (rrfScore_pos k)
        · exact le_refl 0
      have h2 := ih (k + 1)
      linarith

theorem rrfContrib_eq_zero {β : Type} (content : β → String) (c : String) (k : Nat)
    (l : List β) (h : ∀ x ∈ l, content x ≠ c) : rrfContrib content c k l = 0 := by
  induction l generalizing k with
  | nil => rfl
  | cons x xs ih =>
      simp only [rrfContrib]
      rw [if_neg (h x (List.mem_cons_self x xs)), ih (k + 1) fun y hy => h y (List.mem_cons_of_mem x hy)]
      simp

theorem rrfContrib_le {β : Type} (content : β → String) (c : String) (k : Nat)
    (l : List β) (hnd : (l.map content).Nodup) : rrfContrib content c k l ≤ rrfScore k := by
  induction l generalizing k with
  | nil =>
      simp only [rrfContrib]
      exact le_of_lt (rrfScore_pos k)
  | cons x xs ih =>
      simp only [List.map_cons, List.nodup_cons] at hnd
      simp only [rrfContrib]
      by_cases hc : content x = c
      · rw [if_pos hc]
        have hz : rrfContrib content c (k + 1) xs = 0 := by
          apply rrfContrib_eq_zero
          intro y hy hyc
          have hmem : content x ∈ xs.map content := by
            rw [hc, ← hyc]
            exact List.mem_map_of_mem content hy
          exact hnd.1 hmem
        rw [hz]
        simp
      · rw [if_neg hc]
        have h1 := ih (k + 1) hnd.2
        have h2 := rrfScore_le_rrfScore (Nat.le_succ k)
        linarith

theorem rrfContrib_head {β : Type} (content : β → String) (k : Nat) (x : β) (xs : List β)
    (hnd : ((x :: xs).map content).Nodup) :
    rrfContrib content (content x) k (x :: xs) = rrfScore k := by
  simp only [List.map_cons, List.nodup_cons] at hnd
  simp only [rrfContrib, if_pos rfl]
  rw [rrfContrib_eq_zero]
  · simp
  · intro y hy hyc
    have hmem : content x ∈ xs.map content := by
      rw [← hyc]
      exact List.mem_map_of_mem content hy
    exact hnd.1 hmem

theorem rrfContrib_tail_le {β : Type} (content : β → String) (c : String) (k : Nat)
    (x : β) (xs : List β) (hnd : ((x :: xs).map content).Nodup) (hx : content x ≠ c) :
    rrfContrib content c k (x :: xs) ≤ rrfScore (k + 1) := by
  simp only [List.map_cons, List.nodup_cons] at hnd
  simp only [rrfContrib, if_neg hx]
  have h1 := rrfContrib_le content c (k + 1) xs hnd.2
  linarith

/-- `updateFirstBy` for a content-preserving update: the score of the matched
key gains `δ`, other keys are untouched. -/
theorem scoreOf_updateFirstBy (m : List HybridSearchResult) (key c : String) (δ : Rat)
    (f : HybridSearchResult → HybridSearchResult)
    (hcontent : ∀ e, (f e).content = e.content)
    (hscore : ∀ e, (f e).score = e.score + δ) :
    scoreOf (updateFirstBy (fun e => e.content == key) f m) c =
      if c = key ∧ (m.any fun e => e.content == key) then scoreOf m c + δ else scoreOf m c := by
  induction m with
  | nil => simp [updateFirstBy, scoreOf]
  | cons e es ih =>
      by_cases hek : e.content = key
      · have hbek : (e.content == key) = true := beq_iff_eq.mpr hek
        simp only [updateFirstBy, hbek, if_true]
        by_cases hck : c = key
        · have h1 : ((f e).content == c) = true := beq_iff_eq.mpr (by rw [hcontent e, hek, hck])
          have h2 : (e.content == c) = true := beq_iff_eq.mpr (by rw [hek, hck])
          have hany : ((e :: es).any fun x => x.content == key) = true := by
            simp [List.any_cons, hbek]
          rw [if_pos ⟨hck, hany⟩]
          simp only [scoreOf, List.find?_cons, h1, h2]
          exact hscore e
        · have h1 : ((f e).content == c) = false := by
            rw [hcontent e, hek]
            exact beq_eq_false_iff_ne.mpr fun hcon => hck hcon.symm
          have h2 : (e.content == c) = false := by
            rw [hek]
            exact beq_eq_false_iff_ne.mpr fun hcon => hck hcon.symm
          rw [if_neg fun hcon => hck hcon.1]
          simp only [scoreOf, List.find?_cons, h1, h2]
      · have hbek : (e.content == key) = false := beq_eq_false_iff_ne.mpr hek
        simp only [updateFirstBy, hbek, Bool.false_eq_true, if_false]
        by_cases hec : e.content = c
        · have h2 : (e.content == c) = true := beq_iff_eq.mpr hec
          rw [if_neg (fun hcon => hek (by rw [hec, hcon.1]))]
          simp only [scoreOf, List.find?_cons, h2]
        · have h2 : (e.content == c) = false := beq_eq_false_iff_ne.mpr hec
          simp only [scoreOf] at ih ⊢
          simp only [List.find?_cons, h2]
          rw [ih]
          have hany : ((e :: es).any fun x => x.content == key) = (es.any fun x => x.content == key) := by
            simp [List.any_cons, hbek]
          rw [hany]

/-- `scoreOf` over an appended singleton. -/
theorem scoreOf_append_single (m : List HybridSearchResult) (x : HybridSearchResult)
    (c : String) :
    scoreOf (m ++ [x]) c =
      if (m.any fun e => e.content == c) then scoreOf m c
      else if x.content = c then x.score else 0 := by
  by_cases hm : (m.any fun e => e.content == c) = true
  · rw [if_pos hm]
    have hex := List.any_eq_true.mp hm
    obtain ⟨e, he, hec⟩ := hex
    have hsome : (m.find? fun e => e.content == c).isSome := List.find?_isSome.mpr ⟨e, he, hec⟩
    obtain ⟨w, hw⟩ := Option.isSome_iff_exists.mp hsome
    simp only [scoreOf, List.find?_append, hw, Option.or_some]
  · rw [if_neg hm]
    have hnone : (m.find? fun e => e.content == c) = none := by
      rw [List.find?_eq_none]
      intro e he hec
      exact hm (List.any_eq_true.mpr ⟨e, he, hec⟩)
    by_cases hx : x.content = c
    · have hb : (x.content == c) = true := beq_iff_eq.mpr hx
      simp only [scoreOf, List.find?_append, hnone, Option.none_or, List.find?_cons, hb]
      rw [if_pos hx]
    · have hb : (x.content == c) = false := beq_eq_false_iff_ne.mpr hx
      simp only [scoreOf, List.find?_append, hnone, Option.none_or, List.find?_cons, hb]
      rw [if_neg hx]
      rfl

theorem scoreOf_addVectorResult (k : Nat) (r : VectorResult)
    (m : List HybridSearchResult) (c : String) :
    scoreOf (addVectorResult k r m) c =
      scoreOf m c + (if r.content = c then rrfScore k else 0) := by
  unfold addVectorResult
  by_cases hm : (m.any fun e => e.content == r.content) = true
  · rw [if_pos hm]
    rw [scoreOf_updateFirstBy m r.content c (rrfScore k)
        (fun e => { e with score := e.score + rrfScore k, source := .both })
        (fun e => rfl) (fun e => rfl)]
    by_cases hc : c = r.content
    · rw [if_pos ⟨hc, hm⟩, if_pos hc.symm]
    · rw [if_neg (fun hcon => hc hcon.1), if_neg (fun hcon => hc hcon.symm)]
      simp
  · rw [if_neg hm]
    rw [scoreOf_append_single]
    by_cases hc : r.content = c
    · have hmc : (m.any fun e => e.content == c) = false := by
        rw [← hc]
        simpa using hm
      rw [hmc]
      have hn : (m.find? fun e => e.content == c) = none :=
        List.find?_eq_none.mpr fun e he hec =>
          hm (List.any_eq_true.mpr ⟨e, he, by rw [hc]; exact hec⟩)
      have hz : scoreOf m c = 0 := by simp [scoreOf, hn]
      simp [hc, hz]
    · by_cases hmc : (m.any fun e => e.content == c) = true
      · rw [hmc]
        simp [hc]
      · simp only [Bool.not_eq_true] at hmc
        rw [hmc]
        have hn : (m.find? fun e => e.content == c) = none :=
          List.find?_eq_none.mpr fun e he hec =>
            absurd (show (m.any fun x => x.content == c) = true from
              List.any_eq_true.mpr ⟨e, he, hec⟩) (by simp [hmc])
        have hz : scoreOf m c = 0 := by simp [scoreOf, hn]
        simp [hc, hz]

theorem scoreOf_addFtsResult (k : Nat) (r : FtsResult)
    (m : List HybridSearchResult) (c : String) :
    scoreOf (addFtsResult k r m) c =
      scoreOf m c + (if r.content = c then rrfScore k else 0) := by
  unfold addFtsResult
  by_cases hm : (m.any fun e => e.content == r.content) = true
  · rw [if_pos hm]
    have hupd := scoreOf_updateFirstBy m r.content c (rrfScore k)
        (fun e =>
          { e with
            score := e.score + rrfScore k
            source := .both
            metadata := e.metadata ++ [("knowledgeBaseId", r.knowledgeBaseId)] })
        (fun e => rfl) (fun e => rfl)
    rw [hupd]
    by_cases hc : c = r.content
    · rw [if_pos ⟨hc, hm⟩, if_pos hc.symm]
    · rw [if_neg (fun hcon => hc hcon.1), if_neg (fun hcon => hc hcon.symm)]
      simp
  · rw [if_neg hm]
    rw [scoreOf_append_single]
    by_cases hc : r.content = c
    · have hmc : (m.any fun e => e.content == c) = false := by
        rw [← hc]
        simpa using hm
      rw [hmc]
      have hn : (m.find? fun e => e.content == c) = none :=
        List.find?_eq_none.mpr fun e he hec =>
          hm (List.any_eq_true.mpr ⟨e, he, by rw [hc]; exact hec⟩)
      have hz : scoreOf m c = 0 := by simp [scoreOf, hn]
      simp [hc, hz]
    · by_cases hmc : (m.any fun e => e.content == c) = true
      · rw [hmc]
        simp [hc]
      · simp only [Bool.not_eq_true] at hmc
        rw [hmc]
        have hn : (m.find? fun e => e.content == c) = none :=
          List.find?_eq_none.mpr fun e he hec =>
            absurd (show (m.any fun x => x.content == c) = true from
              List.any_eq_true.mpr ⟨e, he, hec⟩) (by simp [hmc])
        have hz : scoreOf m c = 0 := by simp [scoreOf, hn]
        simp [hc, hz]

theorem scoreOf_addAll_vector (rs : List VectorResult) (k : Nat)
    (m : List HybridSearchResult) (c : String) :
    scoreOf (addAll addVectorResult k rs m) c =
      scoreOf m c + rrfContrib VectorResult.content c k rs := by
  induction rs generalizing k m with
  | nil => simp [addAll, rrfContrib]
  | cons r rs ih =>
      simp only [addAll, rrfContrib]
      rw [ih, scoreOf_addVectorResult]
      ring

theorem scoreOf_addAll_fts (rs : List FtsResult) (k : Nat)
    (m : List HybridSearchResult) (c : String) :
    scoreOf (addAll addFtsResult k rs m) c =
      scoreOf m c + rrfContrib FtsResult.content c k rs := by
  induction rs generalizing k m with
  | nil => simp [addAll, rrfContrib]
  | cons r rs ih =>
      simp only [addAll, rrfContrib]
      rw [ih, scoreOf_addFtsResult]
      ring

theorem scoreOf_fusedMap (v : List VectorResult) (f : List FtsResult) (c : String) :
    scoreOf (fusedMap v f) c =
      rrfContrib VectorResult.content c 0 v + rrfContrib FtsResult.content c 0 f := by
  unfold fusedMap
  rw [scoreOf_addAll_fts, scoreOf_addAll_vector]
  simp [scoreOf]

/-- C7: in hybrid search every occurrence of a content at 0-based rank `r` in
either source list contributes exactly `1 / (60 + r + 1)` to that content's
fused score, summed across the two sources; and a document at rank 0 of both
ranked lists outscores every other document.  (The literal reading — some
other document `E` also at rank 0 of one list — is unsatisfiable because `D`
occupies rank 0 of both ranked lists, so the comparison is proved for every
document `E ≠ D`.) -/
theorem claim7_rrf_fusion :
    (∀ (v : List VectorResult) (f : List FtsResult) (c : String),
      scoreOf (fusedMap v f) c =
        rrfContrib VectorResult.content c 0 v + rrfContrib FtsResult.content c 0 f) ∧
    (∀ (vh : VectorResult) (vt : List VectorResult) (fh : FtsResult) (ft : List FtsResult)
        (e : String),
      ((vh :: vt).map VectorResult.content).Nodup →
      ((fh :: ft).map FtsResult.content).Nodup →
      fh.content = vh.content →
      e ≠ vh.content →
      scoreOf (fusedMap (vh :: vt) (fh :: ft)) e <
        scoreOf (fusedMap (vh :: vt) (fh :: ft)) vh.content) := by
  constructor
  · exact scoreOf_fusedMap
  · intro vh vt fh ft e hnv hnf hfh he
    rw [scoreOf_fusedMap, scoreOf_fusedMap]
    have hd1 : rrfContrib VectorResult.content vh.content 0 (vh :: vt) = rrfScore 0 :=
      rrfContrib_head _ 0 vh vt hnv
    have hd2 : rrfContrib FtsResult.content vh.content 0 (fh :: ft) = rrfScore 0 := by
      rw [← hfh]
      exact rrfContrib_head _ 0 fh ft hnf
    have he1 : rrfContrib VectorResult.content e 0 (vh :: vt) ≤ rrfScore 1 :=
      rrfContrib_tail_le _ e 0 vh vt hnv (Ne.symm he)
    have he2 : rrfContrib FtsResult.content e 0 (fh :: ft) ≤ rrfScore 1 := by
      apply rrfContrib_tail_le _ e 0 fh ft hnf
      rw [hfh]
      exact Ne.symm he
    have h0 : rrfScore 0 = 1 / 61 := by norm_num [rrfScore]
    have h1 : rrfScore 1 = 1 / 62 := by norm_num [rrfScore]
    rw [hd1, hd2]
    have hsum := add_le_add he1 he2
    have hlt : rrfScore 1 + rrfScore 1 < rrfScore 0 + rrfScore 0 := by
      rw [h0, h1]
      norm_num
    linarith

theorem claim7_rrf_fusion_witness :
    scoreOf (fusedMap [⟨"D", []⟩] [⟨"i", "D", "kb"⟩, ⟨"j", "E", "kb"⟩]) "E" <
      scoreOf (fusedMap [⟨"D", []⟩] [⟨"i", "D", "kb"⟩, ⟨"j", "E", "kb"⟩]) "D" :=
  claim7_rrf_fusion.2 ⟨"D", []⟩ [] ⟨"i", "D", "kb"⟩ [⟨"j", "E", "kb"⟩] "E"
    (by simp) (by simp) rfl (by simp)

/-- The run of fused entries appended by the fts `forEach` loop when every
processed content is fresh. -/
def ftsEntries : Nat → List FtsResult → List HybridSearchResult
  | _, [] => []
  | k, r :: rs =>
      { id := r.id, content := r.content, score := rrfScore k, source := .fts,
        metadata := [("knowledgeBaseId", r.knowledgeBaseId)] } :: ftsEntries (k + 1) rs

/-- The run of fused entries appended by the vector `forEach` loop when every
processed content is fresh. -/
def vecEntries : Nat → List VectorResult → List HybridSearchResult
  | _, [] => []
  | k, r :: rs =>
      { id := "vector_" ++ toString k, content := r.content, score := rrfScore k,
        source := .vector, metadata := r.metadata } :: vecEntries (k + 1) rs

theorem ftsEntries_map_content (k : Nat) (rs : List FtsResult) :
    (ftsEntries k rs).map (fun e => e.content) = rs.map FtsResult.content := by
  induction rs generalizing k with
  | nil => rfl
  | cons r rs ih => simp [ftsEntries, ih]

theorem vecEntries_map_content (k : Nat) (rs : List VectorResult) :
    (vecEntries k rs).map (fun e => e.content) = rs.map VectorResult.content := by
  induction rs generalizing k with
  | nil => rfl
  | cons r rs ih => simp [vecEntries, ih]

theorem ftsEntries_score_le (k : Nat) (rs : List FtsResult) :
    ∀ x ∈ ftsEntries k rs, x.score ≤ rrfScore k := by
  induction rs generalizing k with
  | nil => intro x hx; cases hx
  | cons r rs ih =>
      intro x hx
      cases hx with
      | head => exact le_refl _
      | tail _ hmem =>
          exact le_trans (ih (k + 1) x hmem) (rrfScore_le_rrfScore (Nat.le_succ k))

theorem vecEntries_score_le (k : Nat) (rs : List VectorResult) :
    ∀ x ∈ vecEntries k rs, x.score ≤ rrfScore k := by
  induction rs generalizing k with
  | nil => intro x hx; cases hx
  | cons r rs ih =>
      intro x hx
      cases hx with
      | head => exact le_refl _
      | tail _ hmem =>
          exact le_trans (ih (k + 1) x hmem) (rrfScore_le_rrfScore (Nat.le_succ k))

theorem ftsEntries_sorted (k : Nat) (rs : List FtsResult) :
    List.Sorted byScoreDesc (ftsEntries k rs) := by
  induction rs generalizing k with
  | nil => exact List.sorted_nil
  | cons r rs ih =>
      rw [ftsEntries, List.sorted_cons]
      exact ⟨fun b hb => ftsEntries_score_le (k + 1) rs b hb |>.trans
        (rrfScore_le_rrfScore (Nat.le_succ k)), ih (k + 1)⟩

theorem vecEntries_sorted (k : Nat) (rs : List VectorResult) :
    List.Sorted byScoreDesc (vecEntries k rs) := by
  induction rs generalizing k with
  | nil => exact List.sorted_nil
  | cons r rs ih =>
      rw [vecEntries, List.sorted_cons]
      exact ⟨fun b hb => vecEntries_score_le (k + 1) rs b hb |>.trans
        (rrfScore_le_rrfScore (Nat.le_succ k)), ih (k + 1)⟩

theorem addAll_fts_fresh (rs : List FtsResult) (k : Nat) (m : List HybridSearchResult)
    (hfresh : ∀ r ∈ rs, (m.any fun e => e.content == r.content) = false)
    (hnd : (rs.map FtsResult.content).Nodup) :
    addAll addFtsResult k rs m = m ++ ftsEntries k rs := by
  induction rs generalizing k m with
  | nil => simp [addAll, ftsEntries]
  | cons r rs ih =>
      simp only [addAll, ftsEntries]
      have hfr : (m.any fun e => e.content == r.content) = false :=
        hfresh r (List.mem_cons_self r rs)
      have hstep : addFtsResult k r m =
          m ++
            [{ id := r.id, content := r.content, score := rrfScore k, source := .fts,
               metadata := [("knowledgeBaseId", r.knowledgeBaseId)] }] := by
        unfold addFtsResult
        rw [if_neg (by simp [hfr])]
      rw [hstep]
      simp only [List.map_cons, List.nodup_cons] at hnd
      rw [ih (k + 1) _ ?hf hnd.2]
      · simp
      case hf =>
        intro q hq
        rw [List.any_append]
        have h1 : (m.any fun e => e.content == q.content) = false :=
          hfresh q (List.mem_cons_of_mem r hq)
        have h2 : (r.content == q.content) = false := by
          apply beq_eq_false_iff_ne.mpr
          intro hcon
          exact hnd.1 (hcon ▸ List.mem_map_of_mem FtsResult.content hq)
        simp [h1, h2]

theorem addAll_vec_fresh (rs : List VectorResult) (k : Nat) (m : List HybridSearchResult)
    (hfresh : ∀ r ∈ rs, (m.any fun e => e.content == r.content) = false)
    (hnd : (rs.map VectorResult.content).Nodup) :
    addAll addVectorResult k rs m = m ++ vecEntries k rs := by
  induction rs generalizing k m with
  | nil => simp [addAll, vecEntries]
  | cons r rs ih =>
      simp only [addAll, vecEntries]
      have hfr : (m.any fun e => e.content == r.content) = false :=
        hfresh r (List.mem_cons_self r rs)
      have hstep : addVectorResult k r m =
          m ++
            [{ id := "vector_" ++ toString k, content := r.content, score := rrfScore k,
               source := .vector, metadata := r.metadata }] := by
        unfold addVectorResult
        rw [if_neg (by simp [hfr])]
      rw [hstep]
      simp only [List.map_cons, List.nodup_cons] at hnd
      rw [ih (k + 1) _ ?hf hnd.2]
      · simp
      case hf =>
        intro q hq
        rw [List.any_append]
        have h1 : (m.any fun e => e.content == q.content) = false :=
          hfresh q (List.mem_cons_of_mem r hq)
        have h2 : (r.content == q.content) = false := by
          apply beq_eq_false_iff_ne.mpr
          intro hcon
          exact hnd.1 (hcon ▸ List.mem_map_of_mem VectorResult.content hq)
        simp [h1, h2]

/-- C8: a rejected sub-search degrades to an empty partial result: with one
source failed, `search` returns exactly the other source's ranking (truncated
to `limit`); with both failed it returns `[]`; in the shallow embedding
`hybridSearch` is a total function, so no exception reaches the caller. -/
theorem claim8_error_isolation :
    (∀ (f : Except Unit (List FtsResult)) (limit : Nat),
      hybridSearch (.error ()) f limit = hybridSearch (.ok []) f limit) ∧
    (∀ (v : Except Unit (List VectorResult)) (limit : Nat),
      hybridSearch v (.error ()) limit = hybridSearch v (.ok []) limit) ∧
    (∀ limit : Nat, hybridSearch (.error ()) (.error ()) limit = []) ∧
    (∀ (f : List FtsResult) (limit : Nat), (f.map FtsResult.content).Nodup →
      (hybridSearch (.error ()) (.ok f) limit).map (fun e => e.content) =
        (f.map FtsResult.content).take limit) ∧
    (∀ (v : List VectorResult) (limit : Nat), (v.map VectorResult.content).Nodup →
      (hybridSearch (.ok v) (.error ()) limit).map (fun e => e.content) =
        (v.map VectorResult.content).take limit) := by
  refine ⟨fun f limit => rfl, fun v limit => rfl, fun limit => ?_, ?_, ?_⟩
  · simp [hybridSearch, fusedMap, addAll, recover]
  · intro f limit hnd
    show ((List.insertionSort byScoreDesc (fusedMap [] f)).take limit).map _ = _
    have hm : fusedMap [] f = ftsEntries 0 f := by
      unfold fusedMap
      rw [show addAll addVectorResult 0 [] [] = [] from rfl]
      rw [addAll_fts_fresh f 0 [] (fun r _ => rfl) hnd]
      rfl
    rw [hm, List.Sorted.insertionSort_eq (ftsEntries_sorted 0 f)]
    simp only [List.map_take]
    rw [ftsEntries_map_content]
  · intro v limit hnd
    show ((List.insertionSort byScoreDesc (fusedMap v [])).take limit).map _ = _
    have hm : fusedMap v [] = vecEntries 0 v := by
      unfold fusedMap
      rw [addAll_vec_fresh v 0 [] (fun r _ => rfl) hnd]
      rfl
    rw [hm, List.Sorted.insertionSort_eq (vecEntries_sorted 0 v)]
    simp only [List.map_take]
    rw [vecEntries_map_content]

theorem claim8_error_isolation_witness :
    (hybridSearch (.error ()) (.ok [⟨"i", "X", "kb"⟩]) 5).map (fun e => e.content) =
        ([(⟨"i", "X", "kb"⟩ : FtsResult)].map FtsResult.content).take 5 ∧
      (hybridSearch (.ok [⟨"Y", []⟩]) (.error ()) 5).map (fun e => e.content) =
        ([(⟨"Y", []⟩ : VectorResult)].map VectorResult.content).take 5 :=
  ⟨claim8_error_isolation.2.2.2.1 [⟨"i", "X", "kb"⟩] 5 (by simp),
    claim8_error_isolation.2.2.2.2 [⟨"Y", []⟩] 5 (by simp)⟩

/-! ## Theorems: conversation memory compactor -/

/-- The stored messages of session `(agentId, userId)`, oldest first. -/
def sessionMessages (st : MemoryState) (agentId : String) (userId : Int) : List MsgRec :=
  st.messages.filter (inSession agentId userId)

/-- The stored summaries of session `(agentId, userId)`, oldest first. -/
def sessionSummaries (st : MemoryState) (agentId : String) (userId : Int) : List SummaryRec :=
  st.summaries.filter fun s => s.agentId == agentId && s.telegramUserId == userId

/-- Splitting a list as `prefix ++ suffix`, filtering for membership of the
suffix keys returns exactly the suffix when the keys are distinct. -/
theorem filter_contains_suffix {α : Type} (t d : List α) (f : α → Nat)
    (hnd : ((t ++ d).map f).Nodup) :
    (t ++ d).filter (fun x => ((d.map f).contains (f x))) = d := by
  rw [List.filter_append]
  rw [List.map_append, List.nodup_append] at hnd
  have ht : t.filter (fun x => ((d.map f).contains (f x))) = [] := by
    rw [List.filter_eq_nil_iff]
    intro x hx hcontains
    have hmem : f x ∈ d.map f := by
      obtain ⟨y, hy, hbeq⟩ := List.contains_iff_exists_mem_beq.mp hcontains
      rw [beq_iff_eq.mp hbeq]
      exact hy
    exact hnd.2.2 (List.mem_map_of_mem f hx) hmem
  have hd : d.filter (fun x => ((d.map f).contains (f x))) = d := by
    rw [List.filter_eq_self]
    intro x hx
    exact List.contains_iff_exists_mem_beq.mpr ⟨f x, List.mem_map_of_mem f hx, by simp⟩
  rw [ht, hd, List.nil_append]

/-- Filtering a message list for membership of the kept-id list returns
exactly the kept suffix when ids are distinct. -/
theorem filter_keep_ids (l : List MsgRec) (n : Nat) (hnd : (l.map MsgRec.id).Nodup) :
    l.filter (fun m => (((l.drop n).map (fun m => m.id)).contains m.id)) = l.drop n := by
  have hnd2 : ((l.take n ++ l.drop n).map (fun m : MsgRec => m.id)).Nodup := by
    rw [List.take_append_drop]
    exact hnd
  have h := filter_contains_suffix (l.take n) (l.drop n) (fun m : MsgRec => m.id) hnd2
  rw [List.take_append_drop] at h
  exact h

/-- `filter` of an appended singleton that satisfies the predicate. -/
theorem filter_append_single_pos {α : Type} (l : List α) (x : α) (p : α → Bool)
    (hx : p x = true) : (l ++ [x]).filter p = l.filter p ++ [x] := by
  rw [List.filter_append]
  simp [hx]

/-- When the session already holds exactly `n` messages, fetching the most
recent `n` returns the whole session log in order. -/
theorem getRecentMessages_full (st : MemoryState) (agentId : String) (userId : Int)
    (n : Nat) (h : (sessionMessages st agentId userId).length ≤ n) :
    getRecentMessages st agentId userId n = sessionMessages st agentId userId := by
  unfold getRecentMessages
  rw [List.take_of_length_le (by simpa using h), List.reverse_reverse]
  rfl

/-- C5 fails as stated at `keepMessages = 0`: with `maxMessages = 2`,
`keepMessages = 0 < 2` and a succeeding summarizer, the second `saveMessage`
triggers compaction and writes the summary, but `messages.slice(-0)` keeps
every row, so the stored count is still 2, not `keepMessages = 0`. -/
theorem claim5_counterexample :
    (sessionMessages
        (saveMessage ⟨2, 0⟩ (fun _ => some "s") "A" 7 .HUMAN "m2"
          (saveMessage ⟨2, 0⟩ (fun _ => some "s") "A" 7 .HUMAN "m1" ⟨[], [], 0⟩)) "A" 7).length = 2 ∧
      (sessionSummaries
        (saveMessage ⟨2, 0⟩ (fun _ => some "s") "A" 7 .HUMAN "m2"
          (saveMessage ⟨2, 0⟩ (fun _ => some "s") "A" 7 .HUMAN "m1" ⟨[], [], 0⟩)) "A" 7).length = 1 ∧
      (2 : Nat) ≠ 0 := by
  refine ⟨by with_unfolding_all rfl, by with_unfolding_all rfl, by simp⟩

/-- Helper: when the compaction condition holds, the fetched window is the
whole session log, the summarizer answers `some s`, and the keep-slice is
non-empty, `checkAndSummarize` appends one summary row and filters the
message table down to the kept ids. -/
theorem checkAndSummarize_compacts (cfg : MemoryConfig)
    (summarize : List MsgRec → Option String) (agentId : String) (userId : Int)
    (st1 : MemoryState) (s : String)
    (hlen : (st1.messages.filter (inSession agentId userId)).length = cfg.maxMessages)
    (hms : getRecentMessages st1 agentId userId cfg.maxMessages =
      st1.messages.filter (inSession agentId userId))
    (hs : summarize (st1.messages.filter (inSession agentId userId)) = some s)
    (hidsne : (((jsSliceLast (st1.messages.filter (inSession agentId userId))
        cfg.keepMessages).map (fun m => m.id)).isEmpty) = false) :
    checkAndSummarize cfg summarize agentId userId st1 =
      { messages := st1.messages.filter fun m =>
          !(inSession agentId userId m) ||
            (((jsSliceLast (st1.messages.filter (inSession agentId userId))
              cfg.keepMessages).map (fun m => m.id)).contains m.id)
        summaries := st1.summaries ++ [{ id := st1.nextId, agentId := agentId,
                                         telegramUserId := userId, summary := s }]
        nextId := st1.nextId + 1 } := by
  unfold checkAndSummarize
  rw [if_pos hlen.ge]
  unfold summarizeAndCleanup
  rw [hms]
  rw [if_neg (by rw [hlen]; exact lt_irrefl _), hs]
  simp only
  rw [if_neg (by rw [hidsne]; exact Bool.false_ne_true)]

/-- Core of the amended C5, stated for an arbitrary post-insert state
`st1 = st + newMsg`. -/
theorem claim5_core (cfg : MemoryConfig) (summarize : List MsgRec → Option String)
    (agentId : String) (userId : Int) (st st1 : MemoryState) (newMsg : MsgRec)
    (hnewSession : inSession agentId userId newMsg = true)
    (hmsgs1 : st1.messages = st.messages ++ [newMsg])
    (hsums1 : st1.summaries = st.summaries)
    (hnewid : ∀ m ∈ st.messages, m.id ≠ newMsg.id)
    (hkeep : 1 ≤ cfg.keepMessages) (hkm : cfg.keepMessages < cfg.maxMessages)
    (hcount : (sessionMessages st agentId userId).length + 1 = cfg.maxMessages)
    (hnd : (st.messages.map MsgRec.id).Nodup)
    (hsum : ∀ ms, (summarize ms).isSome) :
    (sessionMessages (checkAndSummarize cfg summarize agentId userId st1)
        agentId userId).length = cfg.keepMessages ∧
      (sessionSummaries (checkAndSummarize cfg summarize agentId userId st1)
          agentId userId).length =
        (sessionSummaries st agentId userId).length + 1 := by
  have hS : st1.messages.filter (inSession agentId userId) =
      sessionMessages st agentId userId ++ [newMsg] := by
    rw [hmsgs1]
    exact filter_append_single_pos st.messages newMsg _ hnewSession
  have hSlen : (st1.messages.filter (inSession agentId userId)).length = cfg.maxMessages := by
    rw [hS, List.length_append, List.length_singleton, hcount]
  have hnd1 : (st1.messages.map MsgRec.id).Nodup := by
    rw [hmsgs1]
    simp only [List.map_append, List.map_cons, List.map_nil]
    rw [List.nodup_append]
    refine ⟨hnd, List.nodup_singleton _, ?_⟩
    intro i hi hi2
    simp only [List.mem_singleton] at hi2
    obtain ⟨m, hm, hmid⟩ := List.mem_map.mp hi
    exact hnewid m hm (by rw [hmid, hi2])
  have hndS : ((st1.messages.filter (inSession agentId userId)).map MsgRec.id).Nodup :=
    ((List.filter_sublist _).map MsgRec.id).nodup hnd1
  have hms : getRecentMessages st1 agentId userId cfg.maxMessages =
      st1.messages.filter (inSession agentId userId) :=
    getRecentMessages_full st1 agentId userId cfg.maxMessages (le_of_eq hSlen)
  obtain ⟨s, hs⟩ :=
    Option.isSome_iff_exists.mp (hsum (st1.messages.filter (inSession agentId userId)))
  have hkeepne : cfg.keepMessages ≠ 0 := Nat.one_le_iff_ne_zero.mp hkeep
  have hslice : jsSliceLast (st1.messages.filter (inSession agentId userId))
      cfg.keepMessages =
      (st1.messages.filter (inSession agentId userId)).drop
        ((st1.messages.filter (inSession agentId userId)).length - cfg.keepMessages) := by
    unfold jsSliceLast
    rw [if_neg hkeepne]
  have hdroplen : ((st1.messages.filter (inSession agentId userId)).drop
      ((st1.messages.filter (inSession agentId userId)).length - cfg.keepMessages)).length =
      cfg.keepMessages := by
    rw [List.length_drop, hSlen]
    omega
  have hidsne : (((jsSliceLast (st1.messages.filter (inSession agentId userId))
      cfg.keepMessages).map (fun m => m.id)).isEmpty) = false := by
    rw [hslice]
    cases hmap : ((st1.messages.filter (inSession agentId userId)).drop
        ((st1.messages.filter (inSession agentId userId)).length -
          cfg.keepMessages)).map (fun m => m.id) with
    | nil =>
        have hlm := congrArg List.length hmap
        rw [List.length_map, hdroplen] at hlm
        simp at hlm
        omega
    | cons a l => rfl
  rw [checkAndSummarize_compacts cfg summarize agentId userId st1 s hSlen hms hs hidsne]
  constructor
  · show ((st1.messages.filter _).filter (inSession agentId userId)).length = _
    rw [List.filter_filter]
    have hcongr : st1.messages.filter
        (fun m => inSession agentId userId m &&
          (!(inSession agentId userId m) ||
            (((jsSliceLast (st1.messages.filter (inSession agentId userId))
              cfg.keepMessages).map (fun m => m.id)).contains m.id))) =
        (st1.messages.filter (inSession agentId userId)).filter
          (fun m => (((jsSliceLast (st1.messages.filter (inSession agentId userId))
            cfg.keepMessages).map (fun m => m.id)).contains m.id)) := by
      rw [List.filter_filter]
      apply List.filter_congr
      intro m _
      cases hin : inSession agentId userId m <;> simp [hin]
    rw [hcongr, hslice, filter_keep_ids _ _ hndS]
    exact hdroplen
  · show ((st1.summaries ++ [_]).filter _).length = _
    rw [filter_append_single_pos _ _ _ (by simp), List.length_append, hsums1]
    rfl

/-- C5, amended: when `1 ≤ keepMessages < maxMessages`, the stored message
ids are distinct and the fresh id is new, and the summarization call
succeeds, the `saveMessage` call that brings the session to `maxMessages`
stored messages leaves exactly `keepMessages` stored messages and exactly
one new `SummaryRecord` for the session.  (For `keepMessages = 0` the code
keeps all rows — see the counterexample.) -/
theorem claim5_amended (cfg : MemoryConfig) (summarize : List MsgRec → Option String)
    (agentId : String) (userId : Int) (mtype : MessageType) (content : String)
    (st : MemoryState)
    (hkeep : 1 ≤ cfg.keepMessages) (hkm : cfg.keepMessages < cfg.maxMessages)
    (hcount : (sessionMessages st agentId userId).length + 1 = cfg.maxMessages)
    (hids : ∀ m ∈ st.messages, m.id < st.nextId)
    (hnd : (st.messages.map MsgRec.id).Nodup)
    (hsum : ∀ ms, (summarize ms).isSome) :
    (sessionMessages (saveMessage cfg summarize agentId userId mtype content st)
        agentId userId).length = cfg.keepMessages ∧
      (sessionSummaries (saveMessage cfg summarize agentId userId mtype content st)
          agentId userId).length =
        (sessionSummaries st agentId userId).length + 1 := by
  exact claim5_core cfg summarize agentId userId st
    ⟨st.messages ++ [⟨st.nextId, agentId, userId, mtype, content⟩], st.summaries, st.nextId + 1⟩
    ⟨st.nextId, agentId, userId, mtype, content⟩
    (by simp [inSession]) rfl rfl (fun m hm => Nat.ne_of_lt (hids m hm))
    hkeep hkm hcount hnd hsum

theorem claim5_amended_witness :
    (sessionMessages (saveMessage ⟨2, 1⟩ (fun _ => some "s") "A" 7 .HUMAN "m2"
        ⟨[⟨0, "A", 7, .HUMAN, "m1"⟩], [], 1⟩) "A" 7).length = 1 ∧
      (sessionSummaries (saveMessage ⟨2, 1⟩ (fun _ => some "s") "A" 7 .HUMAN "m2"
          ⟨[⟨0, "A", 7, .HUMAN, "m1"⟩], [], 1⟩) "A" 7).length =
        (sessionSummaries ⟨[⟨0, "A", 7, .HUMAN, "m1"⟩], [], 1⟩ "A" 7).length + 1 :=
  claim5_amended ⟨2, 1⟩ (fun _ => some "s") "A" 7 .HUMAN "m2"
    ⟨[⟨0, "A", 7, .HUMAN, "m1"⟩], [], 1⟩ (le_refl 1) Nat.one_lt_two
    (by with_unfolding_all rfl)
    (by intro m hm; simp at hm; simp [hm])
    (by simp)
    (fun _ => rfl)

theorem jsSliceLast_nil {α : Type} (k : Nat) : jsSliceLast ([] : List α) k = [] := by
  unfold jsSliceLast
  split <;> simp

/-- The last element of a JS `slice(-k)` source survives the slice, for
every `k` (including `slice(-0)`, which keeps everything). -/
theorem mem_jsSliceLast_append_single {α : Type} (y : List α) (x : α) (k : Nat) :
    x ∈ jsSliceLast (y ++ [x]) k := by
  unfold jsSliceLast
  split
  · exact List.mem_append_right y (List.mem_singleton_self x)
  · rename_i hk
    have hle : (y ++ [x]).length - k ≤ y.length := by
      simp only [List.length_append, List.length_singleton]
      omega
    rw [List.drop_append_of_le_length hle]
    exact List.mem_append_right _ (List.mem_singleton_self x)

/-- C6: `saveMessage` persists the inbound message before any compaction
logic (the new row is present after every outcome), and when the
summarization completion fails or yields no summary text, no summary row is
written and no message row is deleted: the resulting state is exactly the
old state plus the inserted message. -/
theorem claim6_durability (cfg : MemoryConfig) (summarize : List MsgRec → Option String)
    (agentId : String) (userId : Int) (mtype : MessageType) (content : String)
    (st : MemoryState) :
    (⟨st.nextId, agentId, userId, mtype, content⟩ : MsgRec) ∈
        (saveMessage cfg summarize agentId userId mtype content st).messages ∧
      ((∀ ms, summarize ms = none) →
        saveMessage cfg summarize agentId userId mtype content st =
          ⟨st.messages ++ [⟨st.nextId, agentId, userId, mtype, content⟩],
            st.summaries, st.nextId + 1⟩) := by
  constructor
  · show (⟨st.nextId, agentId, userId, mtype, content⟩ : MsgRec) ∈
      (checkAndSummarize cfg summarize agentId userId
        ⟨st.messages ++ [⟨st.nextId, agentId, userId, mtype, content⟩],
          st.summaries, st.nextId + 1⟩).messages
    have hmemself : (⟨st.nextId, agentId, userId, mtype, content⟩ : MsgRec) ∈
        st.messages ++ [⟨st.nextId, agentId, userId, mtype, content⟩] :=
      List.mem_append_right _ (List.mem_singleton_self _)
    have hinS : inSession agentId userId
        (⟨st.nextId, agentId, userId, mtype, content⟩ : MsgRec) = true := by
      simp [inSession]
    unfold checkAndSummarize
    dsimp only
    split
    · unfold summarizeAndCleanup
      dsimp only
      split
      · exact hmemself
      · rename_i hnotlt
        cases hsm : summarize (getRecentMessages
            ⟨st.messages ++ [⟨st.nextId, agentId, userId, mtype, content⟩],
              st.summaries, st.nextId + 1⟩ agentId userId cfg.maxMessages) with
        | none => simp only [hsm]; exact hmemself
        | some s =>
            simp only [hsm]
            split
            · exact hmemself
            · rename_i hnotemp
              apply List.mem_filter.mpr
              refine ⟨hmemself, ?_⟩
              -- the fetched window ends with the freshly inserted message
              have hmax1 : 1 ≤ cfg.maxMessages := by
                by_contra hcon
                have hmax0 : cfg.maxMessages = 0 := by omega
                apply hnotemp
                rw [hmax0]
                have hg0 : getRecentMessages
                    ⟨st.messages ++ [⟨st.nextId, agentId, userId, mtype, content⟩],
                      st.summaries, st.nextId + 1⟩ agentId userId 0 = [] := rfl
                rw [hg0, jsSliceLast_nil]
                rfl
              obtain ⟨mm, hmm⟩ := Nat.exists_eq_add_of_le hmax1
              have hfetched : getRecentMessages
                  ⟨st.messages ++ [⟨st.nextId, agentId, userId, mtype, content⟩],
                    st.summaries, st.nextId + 1⟩ agentId userId cfg.maxMessages =
                  ((st.messages.filter
                      (inSession agentId userId)).reverse.take mm).reverse ++
                    [⟨st.nextId, agentId, userId, mtype, content⟩] := by
                unfold getRecentMessages
                show (((st.messages ++
                    [(⟨st.nextId, agentId, userId, mtype, content⟩ : MsgRec)]).filter
                      (inSession agentId userId)).reverse.take cfg.maxMessages).reverse = _
                rw [filter_append_single_pos _ _ _ hinS, List.reverse_append]
                simp only [List.reverse_cons, List.reverse_nil, List.nil_append,
                  List.singleton_append]
                rw [hmm, Nat.add_comm 1 mm, List.take_succ_cons, List.reverse_cons]
              rw [hfetched]
              have hidmem : (⟨st.nextId, agentId, userId, mtype, content⟩ : MsgRec).id ∈
                  (jsSliceLast
                    (((st.messages.filter
                        (inSession agentId userId)).reverse.take mm).reverse ++
                      [⟨st.nextId, agentId, userId, mtype, content⟩])
                    cfg.keepMessages).map (fun m => m.id) :=
                List.mem_map_of_mem (fun m : MsgRec => m.id)
                  (mem_jsSliceLast_append_single _ _ cfg.keepMessages)
              simp only [hinS, Bool.not_true, Bool.false_or]
              exact List.contains_iff_exists_mem_beq.mpr ⟨_, hidmem, by simp⟩
    · exact hmemself
  · intro hnone
    show checkAndSummarize cfg summarize agentId userId
        ⟨st.messages ++ [⟨st.nextId, agentId, userId, mtype, content⟩],
          st.summaries, st.nextId + 1⟩ = _
    unfold checkAndSummarize summarizeAndCleanup
    dsimp only
    simp only [hnone]
    split
    · split
      · rfl
      · rfl
    · rfl

theorem claim6_durability_witness :
    ((⟨1, "A", 7, .HUMAN, "m2"⟩ : MsgRec) ∈
        (saveMessage ⟨2, 1⟩ (fun _ => none) "A" 7 .HUMAN "m2"
          ⟨[⟨0, "A", 7, .HUMAN, "m1"⟩], [], 1⟩).messages) ∧
      saveMessage ⟨2, 1⟩ (fun _ => none) "A" 7 .HUMAN "m2"
          ⟨[⟨0, "A", 7, .HUMAN, "m1"⟩], [], 1⟩ =
        ⟨[⟨0, "A", 7, .HUMAN, "m1"⟩] ++ [⟨1, "A", 7, .HUMAN, "m2"⟩], [], 2⟩ :=
  ⟨(claim6_durability ⟨2, 1⟩ (fun _ => none) "A" 7 .HUMAN "m2"
      ⟨[⟨0, "A", 7, .HUMAN, "m1"⟩], [], 1⟩).1,
    (claim6_durability ⟨2, 1⟩ (fun _ => none) "A" 7 .HUMAN "m2"
      ⟨[⟨0, "A", 7, .HUMAN, "m1"⟩], [], 1⟩).2 (fun _ => rfl)⟩

/-! ## Sentence-aware chunker (leo-gateway chunking module)

Strings are `List Char`; `.length` on a JS string is the tail-recursive
`strLen`.  All loops carry explicit fuel equal to the remaining input length
so that every definition is structurally recursive (and hence reducible by
the kernel on concrete inputs); every theorem below is stated for inputs for
which the fuel is sufficient. -/

abbrev Str := List Char

/-- Tail-recursive list length (kept iterative for kernel evaluation of the
large concrete counterexamples). -/
def strLenGo : Nat → Str → Nat
  | acc, [] => acc
  | acc, _ :: rest => strLenGo (acc + 1) rest

def strLen (s : Str) : Nat := strLenGo 0 s

theorem strLenGo_eq (acc : Nat) (s : Str) : strLenGo acc s = acc + s.length := by
  induction s generalizing acc with
  | nil => simp [strLenGo]
  | cons c rest ih =>
      rw [strLenGo, ih]
      simp
      omega

theorem strLen_eq (s : Str) : strLen s = s.length := by
  rw [strLen, strLenGo_eq]
  simp

/-- The JS whitespace class `\s` (restricted to the ASCII whitespace
characters that can occur in the modelled inputs). -/
def jsIsSpace (c : Char) : Bool :=
  c == ' ' || c == '\t' || c == '\n' || c == '\r' || c == '\x0b' || c == '\x0c'

/-- `String.prototype.trimStart`. -/
def trimLeft (s : Str) : Str := s.dropWhile jsIsSpace

/-- `String.prototype.trimEnd`. -/
def trimRight (s : Str) : Str := (s.reverse.dropWhile jsIsSpace).reverse

/-- `String.prototype.trim`. -/
def trim (s : Str) : Str := trimRight (trimLeft s)

/-- `String.prototype.split` with a non-empty separator.  Fuel bounds the
scan; one character is consumed per step, so `strLen s` is enough. -/
def splitStrGo (sep : Str) : Nat → Str → Str → List Str
  | _, [], acc => [acc.reverse]
  | 0, s, acc => [acc.reverse ++ s]
  | fuel + 1, c :: rest, acc =>
      if sep.isPrefixOf (c :: rest) then
        acc.reverse :: splitStrGo sep fuel ((c :: rest).drop sep.length) []
      else
        splitStrGo sep fuel rest (c :: acc)

def splitStr (sep s : Str) : List Str := splitStrGo sep (strLen s) s []

/-- The last-resort branch of `splitLongSentence`:
`for (i = 0; i < len; i += maxSize) push(slice(i, i + maxSize))`. -/
def fixedSlicesGo (maxSize : Nat) : Nat → Str → List Str
  | _, [] => []
  | 0, s => [s]
  | fuel + 1, c :: rest =>
      (c :: rest).take maxSize :: fixedSlicesGo maxSize fuel ((c :: rest).drop maxSize)

def fixedSlices (maxSize : Nat) (s : Str) : List Str := fixedSlicesGo maxSize (strLen s) s

/-- The accumulation loop of `splitLongSentence` over the parts produced by
one separator; `recurse` is the recursive call on oversized parts, `current`
the accumulator, and the returned list the chunks pushed from this point
on (the trailing `if (current) result.push(current)` included). -/
def accumParts (recurse : Str → List Str) (sep : Str) (maxSize : Nat) :
    List Str → Str → List Str
  | [], current => if current.isEmpty then [] else [current]
  | p :: ps, current =>
      let candidate := if current.isEmpty then p else current ++ sep ++ p
      if strLen candidate ≤ maxSize then accumParts recurse sep maxSize ps candidate
      else
        (if current.isEmpty then [] else [current]) ++
          (if maxSize < strLen p then recurse p ++ accumParts recurse sep maxSize ps []
           else accumParts recurse sep maxSize ps p)

def sepSemicolon : Str := [';', ' ']

def sepComma : Str := [',', ' ']

def sepSpace : Str := [' ']

/-- `splitLongSentence(sentence, maxSize)` with explicit fuel; every
recursive call is on a strictly shorter part, so `strLen sentence` fuel is
sufficient. -/
def splitLongSentenceF (maxSize : Nat) : Nat → Str → List Str
  | 0, sentence => if strLen sentence ≤ maxSize then [sentence] else []
  | fuel + 1, sentence =>
      if strLen sentence ≤ maxSize then [sentence]
      else
        let p1 := splitStr sepSemicolon sentence
        if 1 < p1.length then
          accumParts (splitLongSentenceF maxSize fuel) sepSemicolon maxSize p1 []
        else
          let p2 := splitStr sepComma sentence
          if 1 < p2.length then
            accumParts (splitLongSentenceF maxSize fuel) sepComma maxSize p2 []
          else
            let p3 := splitStr sepSpace sentence
            if 1 < p3.length then
              accumParts (splitLongSentenceF maxSize fuel) sepSpace maxSize p3 []
            else
              fixedSlices maxSize sentence

def splitLongSentence (maxSize : Nat) (sentence : Str) : List Str :=
  splitLongSentenceF maxSize (strLen sentence) sentence

/-! ### Sentence tokenizer -/

def isEnderChar (c : Char) : Bool := c == '.' || c == '!' || c == '?' || c == '…'

/-- The regex class `[a-zA-Zа-яА-ЯёЁ]`. -/
def isLetterChar (c : Char) : Bool :=
  (decide (0x61 ≤ c.toNat) && decide (c.toNat ≤ 0x7A)) ||
    (decide (0x41 ≤ c.toNat) && decide (c.toNat ≤ 0x5A)) ||
    (decide (0x430 ≤ c.toNat) && decide (c.toNat ≤ 0x44F)) ||
    (decide (0x410 ≤ c.toNat) && decide (c.toNat ≤ 0x42F)) ||
    c == 'ё' || c == 'Ё'

def isDigitChar (c : Char) : Bool := decide (0x30 ≤ c.toNat) && decide (c.toNat ≤ 0x39)

/-- The regex class `[A-ZА-ЯЁ«"'(]` used for the next-character check. -/
def isUpperOrQuoteChar (c : Char) : Bool :=
  (decide (0x41 ≤ c.toNat) && decide (c.toNat ≤ 0x5A)) ||
    (decide (0x410 ≤ c.toNat) && decide (c.toNat ≤ 0x42F)) ||
    c == 'Ё' || c == '«' || c == '"' || c == '\'' || c == '('

/-- `String.prototype.toLowerCase` on the character classes that matter for
the abbreviation check (ASCII and Cyrillic). -/
def jsToLowerChar (c : Char) : Char :=
  if 0x41 ≤ c.toNat ∧ c.toNat ≤ 0x5A then Char.ofNat (c.toNat + 32)
  else if 0x410 ≤ c.toNat ∧ c.toNat ≤ 0x42F then Char.ofNat (c.toNat + 32)
  else if c = 'Ё' then 'ё'
  else c

def ABBREVIATIONS_EN : List Str :=
  ["mr", "mrs", "ms", "dr", "prof", "sr", "jr", "vs", "etc", "inc", "ltd", "corp",
   "e.g", "i.e", "fig", "vol", "no", "pp", "pg", "jan", "feb", "mar", "apr",
   "jun", "jul", "aug", "sep", "oct", "nov", "dec", "st", "ave", "blvd"].map (·.data)

def ABBREVIATIONS_RU : List Str :=
  ["г", "гг", "т", "д", "п", "стр", "с", "см", "рис", "табл", "ред", "изд",
   "т.д", "т.п", "т.е", "т.к", "т.н", "пр", "др", "гр", "руб", "коп",
   "млн", "млрд", "тыс", "кв", "куб", "мин", "сек", "час", "год", "вв",
   "н.э", "до н.э", "р", "обл", "ул", "пер", "кв-л", "д", "корп", "стр"].map (·.data)

/-- `word.toLowerCase().replace(/\.$/, '')` membership in the abbreviation
sets. -/
def isAbbreviation (word : Str) : Bool :=
  let lower := word.map jsToLowerChar
  let normalized :=
    match lower.reverse with
    | '.' :: rest => rest.reverse
    | _ => lower
  ABBREVIATIONS_EN.contains normalized || ABBREVIATIONS_RU.contains normalized

/-- `isSentenceBoundary(text, pos)` for an ender at `pos`: `revBefore` holds
the characters before `pos` in reverse order, `c` the character at `pos`,
and `restAfter` the characters after `pos`. -/
def boundaryDecision (revBefore : Str) (c : Char) (restAfter : Str) : Bool :=
  if !isEnderChar c then false
  else
    let wordBefore := (revBefore.takeWhile isLetterChar).reverse
    if !wordBefore.isEmpty && isAbbreviation wordBefore then false
    else
      let digitBlock :=
        if !wordBefore.isEmpty && wordBefore.all isDigitChar then
          match restAfter.head? with
          | some d => isDigitChar d
          | none => false
        else false
      if digitBlock then false
      else
        let ws := restAfter.takeWhile jsIsSpace
        match (restAfter.dropWhile jsIsSpace).head? with
        | none => true
        | some nextChar =>
            if isUpperOrQuoteChar nextChar then true
            else if ws.contains '\n' then true
            else restAfter.head? == some ' '

/-- The scanning loop of `tokenizeSentences`: `revAcc` is the current
sentence (reversed), `revBefore` all consumed characters (reversed),
`sentences` the output so far.  Each step consumes at least one character,
so `strLen text` fuel is enough. -/
def tsGo : Nat → Str → Str → Str → List Str → List Str
  | _, [], revAcc, _, sentences =>
      let remaining := trim revAcc.reverse
      if remaining.isEmpty then sentences else sentences ++ [remaining]
  | 0, s, revAcc, _, sentences =>
      let remaining := trim (revAcc.reverse ++ s)
      if remaining.isEmpty then sentences else sentences ++ [remaining]
  | fuel + 1, c :: rest, revAcc, revBefore, sentences =>
      if isEnderChar c then
        let extra := rest.takeWhile isEnderChar
        let rest2 := rest.drop (strLen extra)
        let revConsumed := extra.reverse ++ c :: revAcc
        let revBefore2 := extra.reverse ++ c :: revBefore
        let revBeforeLast := ((extra.reverse ++ [c]).drop 1) ++ revBefore
        let lastEnder := match extra.reverse with | [] => c | e :: _ => e
        if boundaryDecision revBeforeLast lastEnder rest2 then
          let sentence := trim revConsumed.reverse
          let sentences2 := if sentence.isEmpty then sentences else sentences ++ [sentence]
          tsGo fuel rest2 [] revBefore2 sentences2
        else
          tsGo fuel rest2 revConsumed revBefore2 sentences
      else
        tsGo fuel rest (c :: revAcc) (c :: revBefore) sentences

def tokenizeSentences (text : Str) : List Str :=
  if (trim text).isEmpty then [] else tsGo (strLen text) text [] [] []

/-- Index of the last newline inside a whitespace run known to contain
one. -/
def lastNewlineIdx (run : Str) : Nat :=
  match run.reverse.findIdx? (· == '\n') with
  | some j => strLen run - 1 - j
  | none => 0

/-- The split by `/\n\s*\n+/`: a match starts at a newline whose following
whitespace run contains another newline, and extends (after greedy `\s*`
backtracking for `\n+`) up to the last newline of that run. -/
def splitParasGo : Nat → Str → Str → List Str
  | _, [], acc => [acc.reverse]
  | 0, s, acc => [acc.reverse ++ s]
  | fuel + 1, c :: rest, acc =>
      if c == '\n' && (rest.takeWhile jsIsSpace).contains '\n' then
        let j := lastNewlineIdx (rest.takeWhile jsIsSpace)
        acc.reverse :: splitParasGo fuel ((c :: rest).drop (j + 2)) []
      else
        splitParasGo fuel rest (c :: acc)

def tokenizeParagraphs (text : Str) : List Str :=
  ((splitParasGo (strLen text) text []).map trim).filter (fun p => !p.isEmpty)

/-! ### Smart splitter -/

structure TextChunk where
  index : Nat
  text : Str
  sentenceCount : Nat
  deriving Repr, DecidableEq

structure SmartSplitterOptions where
  maxChunkSize : Nat
  overlapSentences : Nat
  minChunkSize : Nat
  deriving Repr, DecidableEq

def DEFAULT_OPTIONS : SmartSplitterOptions :=
  { maxChunkSize := 800, overlapSentences := 1, minChunkSize := 100 }

/-- `currentSentences.join(' ')`. -/
def joinSp : List Str → Str
  | [] => []
  | [s] => s
  | s :: ss => s ++ ' ' :: joinSp ss

/-- Mark the last sentence of a non-final paragraph (`isLastInParagraph`). -/
def markLast : List Str → List (Str × Bool)
  | [] => []
  | [s] => [(s, true)]
  | s :: ss => (s, false) :: markLast ss

/-- Step 2 of `smartSplitText`: tokenize each paragraph and flag the last
sentence of every paragraph but the final one. -/
def buildSentences : List Str → List (Str × Bool)
  | [] => []
  | [p] => (tokenizeSentences p).map (fun s => (s, false))
  | p :: ps => markLast (tokenizeSentences p) ++ buildSentences ps

/-- The mutable loop state of `smartSplitText`. -/
structure SplitState where
  chunks : List TextChunk
  cs : List Str
  curLen : Nat
  idx : Nat
  deriving Repr, DecidableEq

/-- Start the next chunk with the sentence overlap (`slice(-overlapCount)`),
or fresh when `overlapSentences = 0`. -/
def overlapReset (opts : SmartSplitterOptions) (cs : List Str) : List Str × Nat :=
  if 0 < opts.overlapSentences ∧ cs ≠ [] then
    let oc := min opts.overlapSentences cs.length
    let kept := cs.drop (cs.length - oc)
    (kept, strLen (joinSp kept))
  else ([], 0)

/-- Processing of one part inside the sentence loop of `smartSplitText`. -/
def addPart (opts : SmartSplitterOptions) (st : SplitState) (p : Str) : SplitState :=
  let newLength := st.curLen + strLen p + (if st.cs.isEmpty then 0 else 1)
  if ¬st.cs.isEmpty ∧ opts.maxChunkSize < newLength then
    let chunk : TextChunk := ⟨st.idx, trim (joinSp st.cs), st.cs.length⟩
    let reset := overlapReset opts st.cs
    let cs3 := reset.1 ++ [p]
    ⟨st.chunks ++ [chunk], cs3,
      reset.2 + strLen p + (if 1 < cs3.length then 1 else 0), st.idx + 1⟩
  else
    let cs3 := st.cs ++ [p]
    ⟨st.chunks, cs3, st.curLen + strLen p + (if 1 < cs3.length then 1 else 0), st.idx⟩

/-- Processing of one sentence (split into parts, then the paragraph-break
early close). -/
def processSentence (opts : SmartSplitterOptions) (st : SplitState) :
    Str × Bool → SplitState
  | (sentence, pb) =>
      let st1 := (splitLongSentence opts.maxChunkSize sentence).foldl (addPart opts) st
      if pb ∧ opts.minChunkSize ≤ st1.curLen then
        let chunk : TextChunk := ⟨st1.idx, trim (joinSp st1.cs), st1.cs.length⟩
        let reset := overlapReset opts st1.cs
        ⟨st1.chunks ++ [chunk], reset.1, reset.2, st1.idx + 1⟩
      else st1

/-- The trailing-chunk handling of `smartSplitText` (`combined.length <=
maxChunkSize * 1.2` is modelled exactly as `10 * len ≤ 12 * maxChunkSize`). -/
def finalizeChunks (opts : SmartSplitterOptions) (st : SplitState) : List TextChunk :=
  if st.cs.isEmpty then st.chunks
  else
    let lastText := trim (joinSp st.cs)
    if strLen lastText < opts.minChunkSize ∧ st.chunks ≠ [] then
      match st.chunks.getLast? with
      | some prev =>
          let combined := prev.text ++ ' ' :: lastText
          if 10 * strLen combined ≤ 12 * opts.maxChunkSize then
            st.chunks.dropLast ++
              [⟨prev.index, combined, prev.sentenceCount + st.cs.length⟩]
          else st.chunks ++ [⟨st.idx, lastText, st.cs.length⟩]
      | none => st.chunks ++ [⟨st.idx, lastText, st.cs.length⟩]
    else st.chunks ++ [⟨st.idx, lastText, st.cs.length⟩]

/-- Shallow embedding of `smartSplitText(text, options)`. -/
def smartSplitText (text : Str) (opts : SmartSplitterOptions) : List TextChunk :=
  if (trim text).isEmpty then []
  else
    let paragraphs := tokenizeParagraphs text
    let allSentences := buildSentences paragraphs
    if allSentences.isEmpty then [⟨0, trim text, 1⟩]
    else finalizeChunks opts (allSentences.foldl (processSentence opts) ⟨[], [], 0, 0⟩)

/-! ## Theorems: sentence-aware chunker — string lemmas -/

theorem strLen_append (a b : Str) : strLen (a ++ b) = strLen a + strLen b := by
  simp [strLen_eq]

theorem strLen_nil : strLen ([] : Str) = 0 := rfl

theorem strLen_eq_zero {s : Str} (h : strLen s = 0) : s = [] := by
  rw [strLen_eq] at h
  exact List.length_eq_zero.mp h

/-- The head surviving `dropWhile` fails the predicate. -/
theorem dropWhile_head_not {α : Type} (p : α → Bool) (l : List α) (c : α) (t : List α)
    (h : l.dropWhile p = c :: t) : p c = false := by
  induction l with
  | nil => cases h
  | cons x xs ih =>
      rw [List.dropWhile_cons] at h
      by_cases hx : p x = true
      · rw [if_pos hx] at h
        exact ih h
      · rw [if_neg hx] at h
        cases h
        exact Bool.not_eq_true _ |>.mp hx

theorem dropWhile_idem {α : Type} (p : α → Bool) (l : List α) :
    (l.dropWhile p).dropWhile p = l.dropWhile p := by
  cases h : l.dropWhile p with
  | nil => rfl
  | cons c t =>
      rw [List.dropWhile_cons, if_neg (by rw [dropWhile_head_not p l c t h]; simp)]

/-- `trimRight` is a prefix: `z = trimRight z ++ (trailing whitespace)`. -/
theorem trimRight_append (z : Str) :
    z = trimRight z ++ (z.reverse.takeWhile jsIsSpace).reverse := by
  unfold trimRight
  rw [← List.reverse_append, List.takeWhile_append_dropWhile, List.reverse_reverse]

/-- The first character of a trimmed string is not whitespace. -/
theorem trim_head_not_space (y : Str) (c : Char) (t : Str) (h : trim y = c :: t) :
    jsIsSpace c = false := by
  unfold trim at h
  have hpre := trimRight_append (trimLeft y)
  rw [h] at hpre
  cases hTL : trimLeft y with
  | nil =>
      rw [hTL] at hpre
      simp at hpre
  | cons d u =>
      rw [hTL] at hpre
      simp only [List.cons_append] at hpre
      have hdc : d = c := (List.cons.injEq _ _ _ _).mp hpre |>.1
      rw [← hdc]
      exact dropWhile_head_not jsIsSpace y d u hTL

/-- The last character of a trimmed string is not whitespace. -/
theorem trim_getLast_not_space (y : Str) (c : Char) (h : (trim y).getLast? = some c) :
    jsIsSpace c = false := by
  unfold trim trimRight at h
  rw [← List.head?_reverse, List.reverse_reverse] at h
  cases hcase : (trimLeft y).reverse.dropWhile jsIsSpace with
  | nil => rw [hcase] at h; cases h
  | cons d u =>
      rw [hcase] at h
      have hdc : d = c := by simpa using h
      rw [← hdc]
      exact dropWhile_head_not jsIsSpace (trimLeft y).reverse d u hcase

/-- A string that is already trimmed on both ends is fixed by `trim`. -/
theorem trim_eq_self (p : Str) (hne : p ≠ [])
    (hhead : ∀ c t, p = c :: t → jsIsSpace c = false)
    (hlast : ∀ c, p.getLast? = some c → jsIsSpace c = false) :
    trim p = p := by
  have hL : trimLeft p = p := by
    cases hp2 : p with
    | nil => rfl
    | cons c t =>
        unfold trimLeft
        rw [List.dropWhile_cons, if_neg (by rw [hhead c t hp2]; simp)]
  unfold trim
  rw [hL]
  unfold trimRight
  cases hrev : p.reverse with
  | nil =>
      have h0 := congrArg List.reverse hrev
      rw [List.reverse_reverse] at h0
      exact absurd h0 hne
  | cons d u =>
      have hd : p.getLast? = some d := by
        rw [← List.head?_reverse, hrev]
        rfl
      have hstep : List.dropWhile jsIsSpace (d :: u) = d :: u := by
        rw [List.dropWhile_cons, if_neg (by rw [hlast d hd]; simp)]
      have hfin : (d :: u).reverse = p := by
        have h0 := congrArg List.reverse hrev
        rw [List.reverse_reverse] at h0
        exact h0.symm
      rw [hstep, hfin]

/-- `trim` is idempotent. -/
theorem trim_trim (y : Str) : trim (trim y) = trim y := by
  cases hy : trim y with
  | nil => rfl
  | cons c t =>
      rw [← hy]
      apply trim_eq_self _ (by rw [hy]; simp)
      · intro d u hdu
        exact trim_head_not_space y d u hdu
      · intro d hd
        exact trim_getLast_not_space y d hd

/-- `trim x = []` exactly when `x` is all whitespace. -/
theorem trim_eq_nil_iff (x : Str) : trim x = [] ↔ ∀ c ∈ x, jsIsSpace c = true := by
  constructor
  · intro h c hc
    unfold trim trimRight at h
    have h2 : (trimLeft x).reverse.dropWhile jsIsSpace = [] := by
      have := congrArg List.reverse h
      rw [List.reverse_reverse] at this
      rw [this]
      rfl
    have hall : ∀ d ∈ trimLeft x, jsIsSpace d = true := by
      intro d hd
      exact List.dropWhile_eq_nil_iff.mp h2 d (List.mem_reverse.mpr hd)
    have hsplit := List.takeWhile_append_dropWhile jsIsSpace x
    rw [← hsplit] at hc
    rcases List.mem_append.mp hc with hc1 | hc2
    · exact List.mem_takeWhile_imp hc1
    · exact hall c hc2
  · intro h
    have h1 : trimLeft x = [] := List.dropWhile_eq_nil_iff.mpr h
    unfold trim
    rw [h1]
    rfl

/-- A string containing a non-whitespace character does not trim to `[]`. -/
theorem trim_ne_nil_of_mem (x : Str) (c : Char) (hc : c ∈ x) (hws : jsIsSpace c = false) :
    trim x ≠ [] := by
  intro hcon
  rw [trim_eq_nil_iff] at hcon
  rw [hcon c hc] at hws
  cases hws

theorem isEnderChar_not_space (c : Char) (h : isEnderChar c = true) : jsIsSpace c = false := by
  unfold isEnderChar at h
  rcases Bool.or_eq_true_iff.mp h with h1 | h4
  · rcases Bool.or_eq_true_iff.mp h1 with h2 | h3
    · rcases Bool.or_eq_true_iff.mp h2 with h5 | h6
      · rw [show c = '.' from beq_iff_eq.mp h5]; rfl
      · rw [show c = '!' from beq_iff_eq.mp h6]; rfl
    · rw [show c = '?' from beq_iff_eq.mp h3]; rfl
  · rw [show c = '…' from beq_iff_eq.mp h4]; rfl

/-- `joinSp` over an appended singleton. -/
theorem joinSp_append_single (l : List Str) (x : Str) :
    joinSp (l ++ [x]) = if l.isEmpty then x else joinSp l ++ ' ' :: x := by
  induction l with
  | nil => rfl
  | cons s ss ih =>
      cases ss with
      | nil => rfl
      | cons s2 ss2 =>
          have h1 : joinSp ((s :: s2 :: ss2) ++ [x]) =
              s ++ ' ' :: joinSp ((s2 :: ss2) ++ [x]) := rfl
          have h2 : joinSp (s :: s2 :: ss2) = s ++ ' ' :: joinSp (s2 :: ss2) := rfl
          rw [h1, ih, h2]
          simp

theorem strLen_trim_le (s : Str) : strLen (trim s) ≤ strLen s := by
  simp only [strLen_eq]
  unfold trim trimRight trimLeft
  have h1 : (((List.dropWhile jsIsSpace s).reverse.dropWhile jsIsSpace).reverse).length ≤
      ((List.dropWhile jsIsSpace s).reverse).length := by
    rw [List.length_reverse]
    exact (List.dropWhile_sublist jsIsSpace).length_le
  have h2 : ((List.dropWhile jsIsSpace s).reverse).length ≤ s.length := by
    rw [List.length_reverse]
    exact (List.dropWhile_sublist jsIsSpace).length_le
  omega

/-! ### splitStr lemmas -/

theorem getLast?_append_right {α : Type} (a b : List α) (hb : b ≠ []) :
    (a ++ b).getLast? = b.getLast? := by
  rw [List.getLast?_append]
  obtain ⟨x, hx⟩ := Option.isSome_iff_exists.mp (List.getLast?_isSome.mpr hb)
  rw [hx]
  rfl

theorem getLast?_cons_of_ne_nil {α : Type} (x : α) (l : List α) (hl : l ≠ []) :
    (x :: l).getLast? = l.getLast? := by
  have h : x :: l = [x] ++ l := rfl
  rw [h, getLast?_append_right [x] l hl]

theorem splitStrGo_ne_nil (sep : Str) : ∀ (fuel : Nat) (s acc : Str),
    splitStrGo sep fuel s acc ≠ [] := by
  intro fuel
  induction fuel with
  | zero =>
      intro s acc
      cases s <;> simp [splitStrGo]
  | succ fuel ih =>
      intro s acc
      cases s with
      | nil => simp [splitStrGo]
      | cons c rest =>
          rw [splitStrGo]
          split
          · simp
          · exact ih rest (c :: acc)

theorem splitStrGo_length_le (sep : Str) : ∀ (fuel : Nat) (s acc p : Str),
    p ∈ splitStrGo sep fuel s acc → p.length ≤ acc.length + s.length := by
  intro fuel
  induction fuel with
  | zero =>
      intro s acc p hp
      cases s with
      | nil =>
          simp [splitStrGo] at hp
          rw [hp]
          simp
      | cons c rest =>
          simp [splitStrGo] at hp
          rw [hp]
          simp
  | succ fuel ih =>
      intro s acc p hp
      cases s with
      | nil =>
          simp [splitStrGo] at hp
          rw [hp]
          simp
      | cons c rest =>
          rw [splitStrGo] at hp
          split at hp
          · rcases List.mem_cons.mp hp with h1 | h2
            · rw [h1]
              simp
            · have := ih ((c :: rest).drop sep.length) [] p h2
              simp only [List.length_nil, Nat.zero_add, List.length_drop] at this
              have hd : ((c :: rest).length - sep.length) ≤ (c :: rest).length :=
                Nat.sub_le _ _
              omega
          · have := ih rest (c :: acc) p hp
            simp only [List.length_cons] at this ⊢
            omega

theorem splitStrGo_length_lt (sep : Str) (_hsep : sep ≠ []) :
    ∀ (fuel : Nat) (s acc p : Str), s.length ≤ fuel →
      1 < (splitStrGo sep fuel s acc).length →
      p ∈ splitStrGo sep fuel s acc →
      p.length + sep.length ≤ acc.length + s.length := by
  intro fuel
  induction fuel with
  | zero =>
      intro s acc p hs h2 _
      have hnil : s = [] := List.length_eq_zero.mp (Nat.le_zero.mp hs)
      rw [hnil] at h2
      simp [splitStrGo] at h2
  | succ fuel ih =>
      intro s acc p hs h2 hp
      cases s with
      | nil => simp [splitStrGo] at h2
      | cons c rest =>
          by_cases hpre : sep.isPrefixOf (c :: rest)
          · rw [splitStrGo, if_pos hpre] at hp
            have hprefix : sep <+: (c :: rest) := List.isPrefixOf_iff_prefix.mp hpre
            have hseplen : sep.length ≤ (c :: rest).length := hprefix.length_le
            rcases List.mem_cons.mp hp with h1 | hR
            · rw [h1]
              simp only [List.length_reverse]
              omega
            · have := splitStrGo_length_le sep fuel ((c :: rest).drop sep.length) [] p hR
              simp only [List.length_nil, Nat.zero_add, List.length_drop] at this
              omega
          · rw [splitStrGo, if_neg hpre] at h2 hp
            have hr : rest.length ≤ fuel := by
              simp only [List.length_cons] at hs
              omega
            have := ih rest (c :: acc) p hr h2 hp
            simp only [List.length_cons] at this ⊢
            omega

/-- When the input does not end with the separator's last character, the
last part of the split is non-empty and keeps the input's last character. -/
theorem splitStrGo_getLast (sep : Str) (sch : Char) (hsep : sep.getLast? = some sch) :
    ∀ (fuel : Nat) (s acc : Str) (ch : Char), s.length ≤ fuel →
      (acc.reverse ++ s).getLast? = some ch → ch ≠ sch →
      ∃ p, (splitStrGo sep fuel s acc).getLast? = some p ∧ p ≠ [] ∧
        p.getLast? = some ch := by
  have hsepne : sep ≠ [] := by
    intro hcon
    rw [hcon] at hsep
    cases hsep
  intro fuel
  induction fuel with
  | zero =>
      intro s acc ch hs hch hne
      have hnil : s = [] := List.length_eq_zero.mp (Nat.le_zero.mp hs)
      subst hnil
      refine ⟨acc.reverse, by simp [splitStrGo], ?_, ?_⟩
      · intro hcon
        rw [List.append_nil] at hch
        rw [hcon] at hch
        cases hch
      · rw [List.append_nil] at hch
        exact hch
  | succ fuel ih =>
      intro s acc ch hs hch hne
      cases s with
      | nil =>
          refine ⟨acc.reverse, by simp [splitStrGo], ?_, ?_⟩
          · intro hcon
            rw [List.append_nil] at hch
            rw [hcon] at hch
            cases hch
          · rw [List.append_nil] at hch
            exact hch
      | cons c rest =>
          have hlast : (c :: rest).getLast? = some ch := by
            rw [getLast?_append_right acc.reverse (c :: rest) (by simp)] at hch
            exact hch
          rw [splitStrGo]
          split
          · rename_i hpre
            have hprefix : sep <+: (c :: rest) := List.isPrefixOf_iff_prefix.mp hpre
            obtain ⟨s2, hs2⟩ := hprefix
            have hdrop : (c :: rest).drop sep.length = s2 := by
              rw [← hs2]
              exact List.drop_left sep s2
            have hs2ne : s2 ≠ [] := by
              intro hcon
              rw [hcon, List.append_nil] at hs2
              rw [← hs2] at hlast
              rw [hsep] at hlast
              exact hne (by cases hlast; rfl)
            have hs2last : s2.getLast? = some ch := by
              rw [← hs2, getLast?_append_right sep s2 hs2ne] at hlast
              exact hlast
            have hs2len : s2.length ≤ fuel := by
              have h0 := congrArg List.length hs2
              simp only [List.length_append, List.length_cons] at h0
              have h1 : 1 ≤ sep.length := by
                cases sep with
                | nil => exact absurd rfl hsepne
                | cons a b => simp
              simp only [List.length_cons] at hs
              omega
            obtain ⟨p, hp1, hp2, hp3⟩ := ih s2 [] ch hs2len (by simpa using hs2last) hne
            refine ⟨p, ?_, hp2, hp3⟩
            rw [hdrop]
            rw [getLast?_cons_of_ne_nil _ _ (splitStrGo_ne_nil sep fuel s2 [])]
            exact hp1
          · have hr : rest.length ≤ fuel := by
              simp only [List.length_cons] at hs
              omega
            apply ih rest (c :: acc) ch hr _ hne
            rw [List.reverse_cons, List.append_assoc]
            simpa using hch

/-- `splitStr` with more than one part shortens every part by at least the
separator length. -/
theorem splitStr_length_lt (sep s : Str) (hsep : sep ≠ [])
    (h2 : 1 < (splitStr sep s).length) (p : Str) (hp : p ∈ splitStr sep s) :
    p.length + sep.length ≤ s.length := by
  have := splitStrGo_length_lt sep hsep (strLen s) s [] p (le_of_eq (strLen_eq s).symm) h2 hp
  simpa using this

theorem splitStr_getLast (sep s : Str) (sch : Char) (hsep : sep.getLast? = some sch)
    (ch : Char) (hch : s.getLast? = some ch) (hne : ch ≠ sch) :
    ∃ p, (splitStr sep s).getLast? = some p ∧ p ≠ [] ∧ p.getLast? = some ch := by
  apply splitStrGo_getLast sep sch hsep (strLen s) s [] ch (le_of_eq (strLen_eq s).symm)
    (by simpa using hch) hne

theorem mem_of_getLast? {α : Type} {l : List α} {a : α} (h : l.getLast? = some a) :
    a ∈ l := by
  have hne : l ≠ [] := by
    intro hc
    rw [hc] at h
    cases h
  have heq := List.getLast?_eq_getLast l hne
  rw [heq] at h
  cases h
  exact List.getLast_mem hne

/-! ### splitLongSentence lemmas -/

theorem fixedSlicesGo_le (maxSize : Nat) (hmax : 1 ≤ maxSize) :
    ∀ (fuel : Nat) (s : Str), s.length ≤ fuel →
      ∀ p ∈ fixedSlicesGo maxSize fuel s, p.length ≤ maxSize := by
  intro fuel
  induction fuel with
  | zero =>
      intro s hs p hp
      have hnil : s = [] := List.length_eq_zero.mp (Nat.le_zero.mp hs)
      subst hnil
      simp [fixedSlicesGo] at hp
  | succ fuel ih =>
      intro s hs p hp
      cases s with
      | nil => simp [fixedSlicesGo] at hp
      | cons c rest =>
          rw [fixedSlicesGo] at hp
          rcases List.mem_cons.mp hp with h1 | h2
          · rw [h1, List.length_take]
            exact min_le_left _ _
          · apply ih ((c :: rest).drop maxSize) _ p h2
            simp only [List.length_drop, List.length_cons]
            simp only [List.length_cons] at hs
            omega

theorem fixedSlices_cons_ne_nil (maxSize : Nat) (c : Char) (rest : Str) :
    fixedSlices maxSize (c :: rest) ≠ [] := by
  show fixedSlicesGo maxSize (strLen (c :: rest)) (c :: rest) ≠ []
  rw [strLen_eq]
  simp only [List.length_cons]
  rw [fixedSlicesGo]
  simp

theorem accumParts_nil_nil (recurse : Str → List Str) (sep : Str) (maxSize : Nat) :
    accumParts recurse sep maxSize [] [] = [] := by
  with_unfolding_all rfl

theorem accumParts_nil_of_ne_nil (recurse : Str → List Str) (sep : Str) (maxSize : Nat)
    (cur : Str) (h : cur ≠ []) :
    accumParts recurse sep maxSize [] cur = [cur] := by
  rw [accumParts]
  rw [if_neg]
  simp [h]

theorem accumParts_cons_nil (recurse : Str → List Str) (sep : Str) (maxSize : Nat)
    (q : Str) (ps : List Str) :
    accumParts recurse sep maxSize (q :: ps) [] =
      if strLen q ≤ maxSize then accumParts recurse sep maxSize ps q
      else
        if maxSize < strLen q then
          recurse q ++ accumParts recurse sep maxSize ps []
        else accumParts recurse sep maxSize ps q := by
  with_unfolding_all rfl

theorem accumParts_cons_cons (recurse : Str → List Str) (sep : Str) (maxSize : Nat)
    (q : Str) (ps : List Str) (c : Char) (cs : Str) :
    accumParts recurse sep maxSize (q :: ps) (c :: cs) =
      if strLen (c :: cs ++ sep ++ q) ≤ maxSize then
        accumParts recurse sep maxSize ps (c :: cs ++ sep ++ q)
      else
        (c :: cs) ::
          (if maxSize < strLen q then
            recurse q ++ accumParts recurse sep maxSize ps []
          else accumParts recurse sep maxSize ps q) := by
  with_unfolding_all rfl

theorem accumParts_le (recurse : Str → List Str) (sep : Str) (maxSize : Nat)
    (hrec : ∀ q p, p ∈ recurse q → strLen p ≤ maxSize) :
    ∀ (parts : List Str) (current : Str), strLen current ≤ maxSize →
      ∀ p ∈ accumParts recurse sep maxSize parts current, strLen p ≤ maxSize := by
  intro parts
  induction parts with
  | nil =>
      intro current hcur p hp
      rw [accumParts] at hp
      split at hp
      · simp at hp
      · rw [List.mem_singleton.mp hp]
        exact hcur
  | cons q ps ih =>
      intro current hcur p hp
      cases current with
      | nil =>
          rw [accumParts_cons_nil] at hp
          by_cases hc : strLen q ≤ maxSize
          · rw [if_pos hc] at hp
            exact ih q hc p hp
          · rw [if_neg hc, if_pos (Nat.lt_of_not_le hc)] at hp
            rcases List.mem_append.mp hp with hB1 | hB2
            · exact hrec q p hB1
            · exact ih [] (Nat.zero_le _) p hB2
      | cons c cs =>
          rw [accumParts_cons_cons] at hp
          by_cases hc : strLen (c :: cs ++ sep ++ q) ≤ maxSize
          · rw [if_pos hc] at hp
            exact ih _ hc p hp
          · rw [if_neg hc] at hp
            rcases List.mem_cons.mp hp with hA | hB
            · rw [hA]
              exact hcur
            · by_cases hq : maxSize < strLen q
              · rw [if_pos hq] at hB
                rcases List.mem_append.mp hB with hB1 | hB2
                · exact hrec q p hB1
                · exact ih [] (Nat.zero_le _) p hB2
              · rw [if_neg hq] at hB
                exact ih q (Nat.le_of_not_lt hq) p hB

theorem splitLongSentenceF_le (maxSize : Nat) (hmax : 1 ≤ maxSize) :
    ∀ (fuel : Nat) (s p : Str), p ∈ splitLongSentenceF maxSize fuel s →
      strLen p ≤ maxSize := by
  intro fuel
  induction fuel with
  | zero =>
      intro s p hp
      rw [splitLongSentenceF] at hp
      split at hp
      · rw [List.mem_singleton.mp hp]
        assumption
      · simp at hp
  | succ fuel ih =>
      intro s p hp
      rw [splitLongSentenceF] at hp
      dsimp only at hp
      split at hp
      · rw [List.mem_singleton.mp hp]
        assumption
      · have hrec : ∀ q r, r ∈ splitLongSentenceF maxSize fuel q → strLen r ≤ maxSize :=
          fun q r h => ih q r h
        split at hp
        · exact accumParts_le _ _ _ hrec _ [] (Nat.zero_le _) p hp
        · split at hp
          · exact accumParts_le _ _ _ hrec _ [] (Nat.zero_le _) p hp
          · split at hp
            · exact accumParts_le _ _ _ hrec _ [] (Nat.zero_le _) p hp
            · rw [strLen_eq p]
              exact fixedSlicesGo_le maxSize hmax (strLen s) s
                (le_of_eq (strLen_eq s).symm) p hp

/-- Every part produced by `splitLongSentence` fits in `maxSize` (for a
positive `maxSize`). -/
theorem splitLongSentence_le (maxSize : Nat) (hmax : 1 ≤ maxSize) (s p : Str)
    (hp : p ∈ splitLongSentence maxSize s) : strLen p ≤ maxSize :=
  splitLongSentenceF_le maxSize hmax (strLen s) s p hp

theorem accumParts_ne_nil (recurse : Str → List Str) (sep : Str) (maxSize : Nat) :
    ∀ (parts : List Str) (pl : Str), parts.getLast? = some pl → pl ≠ [] →
      (maxSize < strLen pl → recurse pl ≠ []) →
      ∀ (current : Str), accumParts recurse sep maxSize parts current ≠ [] := by
  intro parts
  induction parts with
  | nil =>
      intro pl hlast
      cases hlast
  | cons q ps ih =>
      intro pl hlast hpl hrec current
      cases ps with
      | nil =>
          have hq : q = pl := by
            have h0 : (q :: ([] : List Str)).getLast? = some q := rfl
            rw [h0] at hlast
            cases hlast
            rfl
          subst hq
          cases current with
          | nil =>
              rw [accumParts_cons_nil]
              by_cases hc : strLen q ≤ maxSize
              · rw [if_pos hc, accumParts_nil_of_ne_nil _ _ _ q hpl]
                simp
              · rw [if_neg hc, if_pos (Nat.lt_of_not_le hc), accumParts_nil_nil,
                  List.append_nil]
                exact hrec (Nat.lt_of_not_le hc)
          | cons c cs =>
              rw [accumParts_cons_cons]
              by_cases hc : strLen (c :: cs ++ sep ++ q) ≤ maxSize
              · rw [if_pos hc, accumParts_nil_of_ne_nil _ _ _ _ (by simp)]
                simp
              · rw [if_neg hc]
                simp
      | cons r rs =>
          have hlast2 : (r :: rs).getLast? = some pl := by
            rw [getLast?_cons_of_ne_nil q (r :: rs) (by simp)] at hlast
            exact hlast
          cases current with
          | nil =>
              rw [accumParts_cons_nil]
              by_cases hc : strLen q ≤ maxSize
              · rw [if_pos hc]
                exact ih pl hlast2 hpl hrec q
              · rw [if_neg hc, if_pos (Nat.lt_of_not_le hc)]
                intro hcon
                rcases List.append_eq_nil.mp hcon with ⟨_, h2⟩
                exact ih pl hlast2 hpl hrec [] h2
          | cons c cs =>
              rw [accumParts_cons_cons]
              by_cases hc : strLen (c :: cs ++ sep ++ q) ≤ maxSize
              · rw [if_pos hc]
                exact ih pl hlast2 hpl hrec _
              · rw [if_neg hc]
                simp

theorem splitLongSentenceF_ne_nil (maxSize : Nat) :
    ∀ (fuel : Nat) (s : Str) (ch : Char), strLen s ≤ fuel →
      s.getLast? = some ch → jsIsSpace ch = false →
      splitLongSentenceF maxSize fuel s ≠ [] := by
  have hchne : ∀ ch : Char, jsIsSpace ch = false → ch ≠ ' ' := by
    intro ch h hcon
    rw [hcon] at h
    cases h
  intro fuel
  induction fuel with
  | zero =>
      intro s ch hs hlast _
      have hnil : s = [] := by
        rw [strLen_eq] at hs
        exact List.length_eq_zero.mp (Nat.le_zero.mp hs)
      rw [hnil] at hlast
      cases hlast
  | succ fuel ih =>
      intro s ch hs hlast hws
      have hsne : s ≠ [] := by
        intro hcon
        rw [hcon] at hlast
        cases hlast
      rw [splitLongSentenceF]
      dsimp only
      by_cases hle : strLen s ≤ maxSize
      · rw [if_pos hle]
        simp
      · rw [if_neg hle]
        have step : ∀ sep : Str, sep.getLast? = some ' ' → sep ≠ [] →
            1 < (splitStr sep s).length →
            accumParts (splitLongSentenceF maxSize fuel) sep maxSize (splitStr sep s) [] ≠ [] := by
          intro sep hsl hsepne hmany
          obtain ⟨pl, hpl1, hpl2, hpl3⟩ :=
            splitStr_getLast sep s ' ' hsl ch hlast (hchne ch hws)
          apply accumParts_ne_nil _ sep maxSize (splitStr sep s) pl hpl1 hpl2
          intro _
          apply ih pl ch _ hpl3 hws
          have hmem : pl ∈ splitStr sep s := mem_of_getLast? hpl1
          have hbound := splitStr_length_lt sep s hsepne hmany pl hmem
          have hsep1 : 1 ≤ sep.length := by
            cases sep with
            | nil => exact absurd rfl hsepne
            | cons a b => simp
          rw [strLen_eq] at hs ⊢
          omega
        by_cases h1 : 1 < (splitStr sepSemicolon s).length
        · rw [if_pos h1]
          exact step sepSemicolon rfl (by simp [sepSemicolon]) h1
        · rw [if_neg h1]
          by_cases h2 : 1 < (splitStr sepComma s).length
          · rw [if_pos h2]
            exact step sepComma rfl (by simp [sepComma]) h2
          · rw [if_neg h2]
            by_cases h3 : 1 < (splitStr sepSpace s).length
            · rw [if_pos h3]
              exact step sepSpace rfl (by simp [sepSpace]) h3
            · rw [if_neg h3]
              cases s with
              | nil => exact absurd rfl hsne
              | cons c rest => exact fixedSlices_cons_ne_nil maxSize c rest

/-- `splitLongSentence` returns at least one part whenever the sentence is
non-empty and does not end in whitespace. -/
theorem splitLongSentence_ne_nil (maxSize : Nat) (s : Str) (ch : Char)
    (hlast : s.getLast? = some ch) (hws : jsIsSpace ch = false) :
    splitLongSentence maxSize s ≠ [] :=
  splitLongSentenceF_ne_nil maxSize (strLen s) s ch (Nat.le_refl _) hlast hws

/-! ### Sentence tokenizer lemmas -/

theorem sentencesAppend_mem (sentences : List Str) (y : Str)
    (hs : ∀ q ∈ sentences, ∃ z, q = trim z ∧ q ≠ [])
    (hne : trim y ≠ []) :
    ∀ q ∈ sentences ++ [trim y], ∃ z, q = trim z ∧ q ≠ [] := by
  intro q hq
  rcases List.mem_append.mp hq with h | h
  · exact hs q h
  · refine ⟨y, List.mem_singleton.mp h, ?_⟩
    rw [List.mem_singleton.mp h]
    exact hne

theorem pushSentences_mem (sentences : List Str) (y : Str)
    (hs : ∀ q ∈ sentences, ∃ z, q = trim z ∧ q ≠ []) :
    ∀ q ∈ (if (trim y).isEmpty then sentences else sentences ++ [trim y]),
      ∃ z, q = trim z ∧ q ≠ [] := by
  intro q hq
  split at hq
  · exact hs q hq
  · rename_i hne
    apply sentencesAppend_mem sentences y hs _ q hq
    intro hcon
    rw [hcon] at hne
    exact hne rfl

theorem tsGo_mem : ∀ (fuel : Nat) (s revAcc revBefore : Str) (sentences : List Str),
    (∀ q ∈ sentences, ∃ z, q = trim z ∧ q ≠ []) →
    ∀ q ∈ tsGo fuel s revAcc revBefore sentences, ∃ z, q = trim z ∧ q ≠ [] := by
  intro fuel
  induction fuel with
  | zero =>
      intro s revAcc revBefore sentences hs q hq
      cases s with
      | nil =>
          rw [tsGo] at hq
          exact pushSentences_mem sentences revAcc.reverse hs q hq
      | cons c rest =>
          rw [tsGo] at hq
          · exact pushSentences_mem sentences (revAcc.reverse ++ c :: rest) hs q hq
          · simp
  | succ fuel ih =>
      intro s revAcc revBefore sentences hs q hq
      cases s with
      | nil =>
          rw [tsGo] at hq
          exact pushSentences_mem sentences revAcc.reverse hs q hq
      | cons c rest =>
          rw [tsGo] at hq
          by_cases he : isEnderChar c = true
          · rw [if_pos he] at hq
            dsimp only at hq
            repeat' split at hq
            all_goals
              first
              | exact ih _ _ _ _ hs q hq
              | (rename_i hne
                 refine ih _ _ _ _ (sentencesAppend_mem _ _ hs ?_) q hq
                 intro hcon
                 rw [hcon] at hne
                 exact hne rfl)
          · rw [if_neg he] at hq
            exact ih _ _ _ _ hs q hq

/-- Every sentence returned by `tokenizeSentences` is a non-empty trimmed
string. -/
theorem tokenizeSentences_mem (text q : Str) (hq : q ∈ tokenizeSentences text) :
    ∃ z, q = trim z ∧ q ≠ [] := by
  rw [tokenizeSentences] at hq
  split at hq
  · simp at hq
  · exact tsGo_mem (strLen text) text [] [] [] (by simp) q hq

theorem tokenizeSentences_last (text q : Str) (hq : q ∈ tokenizeSentences text) :
    ∃ ch, q.getLast? = some ch ∧ jsIsSpace ch = false := by
  obtain ⟨z, hz, hne⟩ := tokenizeSentences_mem text q hq
  obtain ⟨ch, hch⟩ := Option.isSome_iff_exists.mp (List.getLast?_isSome.mpr hne)
  refine ⟨ch, hch, ?_⟩
  apply trim_getLast_not_space z ch
  rw [← hz]
  exact hch

theorem tsGo_ne_nil : ∀ (fuel : Nat) (s revAcc revBefore : Str) (sentences : List Str),
    (sentences ≠ [] ∨ trim (revAcc.reverse ++ s) ≠ []) →
    tsGo fuel s revAcc revBefore sentences ≠ [] := by
  have base : ∀ (y : Str) (sentences : List Str),
      (sentences ≠ [] ∨ trim y ≠ []) →
      (if (trim y).isEmpty then sentences else sentences ++ [trim y]) ≠ [] := by
    intro y sentences h
    split
    · rcases h with h1 | h2
      · exact h1
      · rename_i hie
        exact absurd (List.isEmpty_iff.mp hie) h2
    · simp
  intro fuel
  induction fuel with
  | zero =>
      intro s revAcc revBefore sentences h
      cases s with
      | nil =>
          rw [tsGo]
          apply base
          rw [List.append_nil] at h
          exact h
      | cons c rest =>
          rw [tsGo]
          · exact base _ _ h
          · simp
  | succ fuel ih =>
      intro s revAcc revBefore sentences h
      cases s with
      | nil =>
          rw [tsGo]
          apply base
          rw [List.append_nil] at h
          exact h
      | cons c rest =>
          rw [tsGo]
          by_cases he : isEnderChar c = true
          · rw [if_pos he]
            dsimp only
            have hcmem : c ∈ ((rest.takeWhile isEnderChar).reverse ++ c :: revAcc).reverse := by
              simp
            have hcws : jsIsSpace c = false := isEnderChar_not_space c he
            have hsne : ¬((trim ((rest.takeWhile isEnderChar).reverse ++ c :: revAcc).reverse).isEmpty = true) := by
              intro hcon
              exact trim_ne_nil_of_mem _ c hcmem hcws (List.isEmpty_iff.mp hcon)
            rw [if_neg hsne]
            repeat' split
            all_goals
              first
              | (apply ih
                 left
                 exact fun hcon => List.cons_ne_nil _ _ (List.append_eq_nil.mp hcon).2)
              | (apply ih
                 right
                 apply trim_ne_nil_of_mem _ c _ hcws
                 rw [List.mem_append]
                 left
                 exact hcmem)
          · rw [if_neg he]
            apply ih
            rcases h with h1 | h2
            · exact Or.inl h1
            · right
              have hre : (c :: revAcc).reverse ++ rest = revAcc.reverse ++ (c :: rest) := by
                simp
              rw [hre]
              exact h2

/-- `tokenizeSentences` is non-empty on input with a non-whitespace
character. -/
theorem tokenizeSentences_ne_nil (text : Str) (h : trim text ≠ []) :
    tokenizeSentences text ≠ [] := by
  rw [tokenizeSentences]
  rw [if_neg (by simpa [List.isEmpty_iff] using h)]
  apply tsGo_ne_nil
  right
  simpa using h

/-! ### Paragraph splitter lemmas -/

theorem findIdx?_lt {α : Type} (p : α → Bool) :
    ∀ (l : List α) (i j : Nat), List.findIdx? p l i = some j → j < i + l.length := by
  intro l
  induction l with
  | nil =>
      intro i j h
      simp [List.findIdx?] at h
  | cons x xs ih =>
      intro i j h
      rw [List.findIdx?_cons] at h
      split at h
      · cases h
        simp
      · have := ih (i + 1) j h
        simp only [List.length_cons]
        omega

theorem contains_mem {l : Str} {a : Char} (h : l.contains a = true) : a ∈ l := by
  rw [List.contains_iff_exists_mem_beq] at h
  obtain ⟨x, hx, hbeq⟩ := h
  rw [beq_iff_eq] at hbeq
  rw [hbeq]
  exact hx

theorem lastNewlineIdx_lt (run : Str) (h : run.contains '\n' = true) :
    lastNewlineIdx run + 1 ≤ run.length := by
  unfold lastNewlineIdx
  cases hidx : List.findIdx? (· == '\n') run.reverse with
  | none =>
      exfalso
      have hmem : '\n' ∈ run.reverse := List.mem_reverse.mpr (contains_mem h)
      have hsome : (List.findIdx? (· == '\n') run.reverse).isSome =
          run.reverse.any (· == '\n') := List.findIdx?_isSome
      rw [hidx] at hsome
      have hany : run.reverse.any (· == '\n') = true :=
        List.any_eq_true.mpr ⟨'\n', hmem, by simp⟩
      rw [hany] at hsome
      cases hsome
  | some j =>
      have hj := findIdx?_lt _ run.reverse 0 j hidx
      rw [List.length_reverse] at hj
      dsimp only
      rw [strLen_eq]
      omega

theorem splitParasGo_mem : ∀ (fuel : Nat) (s acc : Str) (c : Char),
    c ∈ acc.reverse ++ s → jsIsSpace c = false →
    ∃ piece ∈ splitParasGo fuel s acc, c ∈ piece := by
  intro fuel
  induction fuel with
  | zero =>
      intro s acc c hc hws
      cases s with
      | nil =>
          rw [List.append_nil] at hc
          exact ⟨acc.reverse, by rw [splitParasGo]; simp, hc⟩
      | cons d rest =>
          refine ⟨acc.reverse ++ d :: rest, ?_, hc⟩
          rw [splitParasGo]
          · simp
          · simp
  | succ fuel ih =>
      intro s acc c hc hws
      cases s with
      | nil =>
          rw [List.append_nil] at hc
          exact ⟨acc.reverse, by rw [splitParasGo]; simp, hc⟩
      | cons d rest =>
          rw [splitParasGo]
          dsimp only
          by_cases hcond : (d == '\n' && (rest.takeWhile jsIsSpace).contains '\n') = true
          · rw [if_pos hcond]
            rcases List.mem_append.mp hc with hA | hB
            · exact ⟨acc.reverse, List.mem_cons_self _ _, hA⟩
            · have hd : d = '\n' := by
                have := (Bool.and_eq_true _ _).mp hcond
                exact beq_iff_eq.mp this.1
              have hcr : c ∈ rest := by
                rcases List.mem_cons.mp hB with h1 | h2
                · exfalso
                  rw [h1, hd] at hws
                  simp [jsIsSpace] at hws
                · exact h2
              have hrun : (rest.takeWhile jsIsSpace).contains '\n' = true :=
                ((Bool.and_eq_true _ _).mp hcond).2
              have hbound := lastNewlineIdx_lt (rest.takeWhile jsIsSpace) hrun
              have hcdrop : c ∈ rest.drop (lastNewlineIdx (rest.takeWhile jsIsSpace) + 1) := by
                have hsplit : rest.take (lastNewlineIdx (rest.takeWhile jsIsSpace) + 1) ++
                    rest.drop (lastNewlineIdx (rest.takeWhile jsIsSpace) + 1) = rest :=
                  List.take_append_drop _ _
                rw [← hsplit] at hcr
                rcases List.mem_append.mp hcr with h1 | h2
                · exfalso
                  have htw : rest.take (lastNewlineIdx (rest.takeWhile jsIsSpace) + 1) =
                      (rest.takeWhile jsIsSpace).take (lastNewlineIdx (rest.takeWhile jsIsSpace) + 1) := by
                    have hdecomp := List.takeWhile_append_dropWhile jsIsSpace rest
                    calc rest.take (lastNewlineIdx (rest.takeWhile jsIsSpace) + 1)
                        = (rest.takeWhile jsIsSpace ++ rest.dropWhile jsIsSpace).take
                            (lastNewlineIdx (rest.takeWhile jsIsSpace) + 1) := by rw [hdecomp]
                      _ = (rest.takeWhile jsIsSpace).take
                            (lastNewlineIdx (rest.takeWhile jsIsSpace) + 1) :=
                          List.take_append_of_le_length hbound
                  rw [htw] at h1
                  have hcws : jsIsSpace c = true :=
                    List.mem_takeWhile_imp (List.take_subset _ _ h1)
                  rw [hcws] at hws
                  cases hws
                · exact h2
              obtain ⟨piece, hp1, hp2⟩ :=
                ih ((d :: rest).drop (lastNewlineIdx (rest.takeWhile jsIsSpace) + 2)) [] c
                  (by
                    rw [List.drop_succ_cons]
                    simpa using hcdrop)
                  hws
              exact ⟨piece, List.mem_cons_of_mem _ hp1, hp2⟩
          · rw [if_neg hcond]
            apply ih rest (d :: acc) c _ hws
            have hre : (d :: acc).reverse ++ rest = acc.reverse ++ d :: rest := by
              simp
            rw [hre]
            exact hc

theorem tokenizeParagraphs_mem (text p : Str) (hp : p ∈ tokenizeParagraphs text) :
    trim p = p ∧ p ≠ [] := by
  rw [tokenizeParagraphs] at hp
  have h1 := List.of_mem_filter hp
  have h2 := List.mem_of_mem_filter hp
  obtain ⟨y, _, hy⟩ := List.mem_map.mp h2
  constructor
  · rw [← hy]
    exact trim_trim y
  · intro hcon
    rw [hcon] at h1
    simp at h1

theorem tokenizeParagraphs_ne_nil (text : Str) (h : trim text ≠ []) :
    tokenizeParagraphs text ≠ [] := by
  have hex : ∃ c ∈ text, jsIsSpace c = false := by
    by_contra hcon
    push_neg at hcon
    apply h
    rw [trim_eq_nil_iff]
    intro c hc
    have := hcon c hc
    cases hws : jsIsSpace c with
    | false => exact absurd hws this
    | true => rfl
  obtain ⟨c, hc, hws⟩ := hex
  obtain ⟨piece, hpm, hpc⟩ := splitParasGo_mem (strLen text) text [] c (by simpa) hws
  intro hcon
  rw [tokenizeParagraphs] at hcon
  rw [List.filter_eq_nil_iff] at hcon
  have hmem : trim piece ∈ (splitParasGo (strLen text) text []).map trim :=
    List.mem_map_of_mem trim hpm
  have hne : trim piece ≠ [] := trim_ne_nil_of_mem piece c hpc hws
  have h3 := hcon _ hmem
  simp at h3
  exact hne h3

/-! ### buildSentences lemmas -/

theorem markLast_mem : ∀ (l : List Str) (s : Str) (b : Bool),
    (s, b) ∈ markLast l → s ∈ l := by
  intro l
  induction l with
  | nil =>
      intro s b h
      simp [markLast] at h
  | cons x xs ih =>
      intro s b h
      cases xs with
      | nil =>
          rw [markLast] at h
          simp at h
          simp [h.1]
      | cons y ys =>
          rw [markLast] at h
          · rcases List.mem_cons.mp h with h1 | h2
            · cases h1
              simp
            · exact List.mem_cons_of_mem _ (ih s b h2)
          · simp

theorem markLast_ne_nil : ∀ (l : List Str), l ≠ [] → markLast l ≠ [] := by
  intro l hl
  cases l with
  | nil => exact absurd rfl hl
  | cons x xs =>
      cases xs with
      | nil => rw [markLast]; simp
      | cons y ys =>
          rw [markLast]
          · simp
          · simp

theorem buildSentences_mem : ∀ (ps : List Str) (s : Str) (b : Bool),
    (s, b) ∈ buildSentences ps → ∃ p ∈ ps, s ∈ tokenizeSentences p := by
  intro ps
  induction ps with
  | nil =>
      intro s b h
      simp [buildSentences] at h
  | cons p ps2 ih =>
      intro s b h
      cases ps2 with
      | nil =>
          rw [buildSentences] at h
          obtain ⟨x, hx, hxe⟩ := List.mem_map.mp h
          refine ⟨p, by simp, ?_⟩
          cases hxe
          exact hx
      | cons q qs =>
          rw [buildSentences] at h
          · rcases List.mem_append.mp h with h1 | h2
            · exact ⟨p, by simp, markLast_mem _ s b h1⟩
            · obtain ⟨r, hr1, hr2⟩ := ih s b h2
              exact ⟨r, List.mem_cons_of_mem _ hr1, hr2⟩
          · simp

theorem buildSentences_ne_nil : ∀ (ps : List Str), ps ≠ [] →
    (∀ p ∈ ps, tokenizeSentences p ≠ []) → buildSentences ps ≠ [] := by
  intro ps hne h
  cases ps with
  | nil => exact absurd rfl hne
  | cons p ps2 =>
      cases ps2 with
      | nil =>
          rw [buildSentences]
          intro hcon
          rw [List.map_eq_nil_iff] at hcon
          exact h p (by simp) hcon
      | cons q qs =>
          rw [buildSentences]
          · intro hcon
            rcases List.append_eq_nil.mp hcon with ⟨h1, _⟩
            exact markLast_ne_nil _ (h p (by simp)) h1
          · simp

/-! ### Smart splitter invariants -/

def chunksOk (opts : SmartSplitterOptions) (st : SplitState) : Prop :=
  (∀ c ∈ st.chunks, strLen c.text ≤ opts.maxChunkSize) ∧
    st.curLen = strLen (joinSp st.cs) ∧ st.curLen ≤ opts.maxChunkSize

theorem overlapReset_zero (opts : SmartSplitterOptions)
    (hov : opts.overlapSentences = 0) (cs : List Str) :
    overlapReset opts cs = ([], 0) := by
  unfold overlapReset
  rw [if_neg]
  rintro ⟨h1, _⟩
  rw [hov] at h1
  exact absurd h1 (lt_irrefl 0)

theorem addPart_pos (opts : SmartSplitterOptions) (st : SplitState) (p : Str)
    (hne : st.cs.isEmpty = false)
    (hlt : opts.maxChunkSize < st.curLen + strLen p + 1) :
    addPart opts st p =
      ⟨st.chunks ++ [⟨st.idx, trim (joinSp st.cs), st.cs.length⟩],
        (overlapReset opts st.cs).1 ++ [p],
        (overlapReset opts st.cs).2 + strLen p +
          (if 1 < ((overlapReset opts st.cs).1 ++ [p]).length then 1 else 0),
        st.idx + 1⟩ := by
  unfold addPart
  rw [if_pos]
  refine ⟨by simp [hne], ?_⟩
  rw [hne]
  simpa using hlt

theorem addPart_empty (opts : SmartSplitterOptions) (st : SplitState) (p : Str)
    (hce : st.cs.isEmpty = true) :
    addPart opts st p =
      ⟨st.chunks, st.cs ++ [p],
        st.curLen + strLen p + (if 1 < (st.cs ++ [p]).length then 1 else 0),
        st.idx⟩ := by
  unfold addPart
  rw [if_neg]
  rintro ⟨h1, _⟩
  rw [hce] at h1
  exact h1 rfl

theorem addPart_small (opts : SmartSplitterOptions) (st : SplitState) (p : Str)
    (hne : st.cs.isEmpty = false)
    (hle : st.curLen + strLen p + 1 ≤ opts.maxChunkSize) :
    addPart opts st p =
      ⟨st.chunks, st.cs ++ [p],
        st.curLen + strLen p + (if 1 < (st.cs ++ [p]).length then 1 else 0),
        st.idx⟩ := by
  unfold addPart
  rw [if_neg]
  rintro ⟨_, h2⟩
  rw [hne] at h2
  simp only [if_neg Bool.false_ne_true] at h2
  omega

theorem addPart_chunksOk (opts : SmartSplitterOptions) (st : SplitState) (p : Str)
    (hov : opts.overlapSentences = 0)
    (hinv : chunksOk opts st) (hp : strLen p ≤ opts.maxChunkSize) :
    chunksOk opts (addPart opts st p) := by
  obtain ⟨h1, h2, h3⟩ := hinv
  cases hce : st.cs.isEmpty with
  | true =>
      rw [addPart_empty opts st p hce]
      have hcs : st.cs = [] := List.isEmpty_iff.mp hce
      have hcur : st.curLen = 0 := by
        rw [h2, hcs]
        rfl
      refine ⟨h1, ?_, ?_⟩
      · rw [hcs]
        simp only [List.nil_append, List.length_cons, List.length_nil]
        rw [if_neg (by omega)]
        rw [hcur]
        have hj : joinSp [p] = p := rfl
        rw [hj]
        omega
      · rw [hcs]
        simp only [List.nil_append, List.length_cons, List.length_nil]
        rw [if_neg (by omega)]
        omega
  | false =>
      by_cases hlt : opts.maxChunkSize < st.curLen + strLen p + 1
      · rw [addPart_pos opts st p hce hlt, overlapReset_zero opts hov st.cs]
        refine ⟨?_, ?_, ?_⟩
        · intro c hc
          rcases List.mem_append.mp hc with hA | hB
          · exact h1 c hA
          · rw [List.mem_singleton.mp hB]
            calc strLen (trim (joinSp st.cs)) ≤ strLen (joinSp st.cs) := strLen_trim_le _
              _ = st.curLen := h2.symm
              _ ≤ opts.maxChunkSize := h3
        · simp only [List.nil_append, List.length_cons, List.length_nil]
          rw [if_neg (by omega)]
          show 0 + strLen p + 0 = strLen (joinSp [p])
          have : joinSp [p] = p := rfl
          rw [this]
          omega
        · simp only [List.nil_append, List.length_cons, List.length_nil]
          rw [if_neg (by omega)]
          omega
      · have hle : st.curLen + strLen p + 1 ≤ opts.maxChunkSize := by omega
        rw [addPart_small opts st p hce hle]
        have hcsne : st.cs ≠ [] := by
          intro hcon
          rw [hcon] at hce
          cases hce
        have hlen : 1 < (st.cs ++ [p]).length := by
          rw [List.length_append, List.length_cons, List.length_nil]
          have h0 : 0 < st.cs.length := List.length_pos.mpr hcsne
          omega
        refine ⟨h1, ?_, ?_⟩
        · show st.curLen + strLen p + _ = strLen (joinSp (st.cs ++ [p]))
          have hj : joinSp (st.cs ++ [p]) = joinSp st.cs ++ ' ' :: p := by
            rw [joinSp_append_single st.cs p, if_neg]
            rw [hce]
            exact Bool.false_ne_true
          have hsp : strLen (' ' :: p) = 1 + strLen p := by
            rw [strLen_eq, strLen_eq]
            simp only [List.length_cons]
            omega
          rw [hj, strLen_append, hsp, if_pos hlen, ← h2]
          omega
        · show st.curLen + strLen p + _ ≤ opts.maxChunkSize
          rw [if_pos hlen]
          omega

theorem foldl_addPart_chunksOk (opts : SmartSplitterOptions)
    (hov : opts.overlapSentences = 0) :
    ∀ (parts : List Str), (∀ p ∈ parts, strLen p ≤ opts.maxChunkSize) →
      ∀ st, chunksOk opts st → chunksOk opts (parts.foldl (addPart opts) st) := by
  intro parts
  induction parts with
  | nil =>
      intro _ st hinv
      exact hinv
  | cons p ps ih =>
      intro hparts st hinv
      rw [List.foldl_cons]
      exact ih (fun q hq => hparts q (List.mem_cons_of_mem _ hq)) _
        (addPart_chunksOk opts st p hov hinv (hparts p (List.mem_cons_self _ _)))

theorem processSentence_chunksOk (opts : SmartSplitterOptions)
    (hov : opts.overlapSentences = 0) (hmax : 1 ≤ opts.maxChunkSize)
    (st : SplitState) (sb : Str × Bool) (hinv : chunksOk opts st) :
    chunksOk opts (processSentence opts st sb) := by
  obtain ⟨sentence, pb⟩ := sb
  rw [processSentence]
  have hst1 : chunksOk opts
      ((splitLongSentence opts.maxChunkSize sentence).foldl (addPart opts) st) :=
    foldl_addPart_chunksOk opts hov _
      (fun p hp => splitLongSentence_le opts.maxChunkSize hmax sentence p hp) st hinv
  obtain ⟨h1, h2, h3⟩ := hst1
  split
  · refine ⟨?_, ?_, ?_⟩
    · intro c hc
      rcases List.mem_append.mp hc with hA | hB
      · exact h1 c hA
      · rw [List.mem_singleton.mp hB]
        calc strLen (trim (joinSp _)) ≤ strLen (joinSp _) := strLen_trim_le _
          _ ≤ opts.maxChunkSize := h2 ▸ h3
    · rw [overlapReset_zero opts hov]
      rfl
    · rw [overlapReset_zero opts hov]
      exact Nat.zero_le _
  · exact ⟨h1, h2, h3⟩

theorem foldl_processSentence_chunksOk (opts : SmartSplitterOptions)
    (hov : opts.overlapSentences = 0) (hmax : 1 ≤ opts.maxChunkSize) :
    ∀ (l : List (Str × Bool)) (st), chunksOk opts st →
      chunksOk opts (l.foldl (processSentence opts) st) := by
  intro l
  induction l with
  | nil =>
      intro st hinv
      exact hinv
  | cons sb l2 ih =>
      intro st hinv
      rw [List.foldl_cons]
      exact ih _ (processSentence_chunksOk opts hov hmax st sb hinv)

theorem finalizeChunks_bounds (opts : SmartSplitterOptions) (st : SplitState)
    (hinv : chunksOk opts st) :
    (∀ c ∈ finalizeChunks opts st, 10 * strLen c.text ≤ 12 * opts.maxChunkSize) ∧
      (∀ c ∈ (finalizeChunks opts st).dropLast, strLen c.text ≤ opts.maxChunkSize) := by
  obtain ⟨h1, h2, h3⟩ := hinv
  have hlast : strLen (trim (joinSp st.cs)) ≤ opts.maxChunkSize :=
    le_trans (strLen_trim_le _) (h2 ▸ h3)
  have hofmax : ∀ n, n ≤ opts.maxChunkSize → 10 * n ≤ 12 * opts.maxChunkSize := by
    intro n h
    omega
  rw [finalizeChunks]
  dsimp only
  repeat' split
  all_goals constructor
  all_goals
    first
    | exact fun c hc => hofmax _ (h1 c hc)
    | exact fun c hc => h1 c (List.dropLast_subset _ hc)
    | (intro c hc
       rcases List.mem_append.mp hc with hA | hB
       · first
         | exact hofmax _ (h1 c hA)
         | exact hofmax _ (h1 c (List.dropLast_subset _ hA))
       · rw [List.mem_singleton.mp hB]
         first
         | assumption
         | exact hofmax _ hlast)
    | (intro c hc
       rw [List.dropLast_concat] at hc
       first
       | exact h1 c hc
       | exact h1 c (List.dropLast_subset _ hc))

def idxOk (st : SplitState) : Prop :=
  st.chunks.map TextChunk.index = List.range st.chunks.length ∧
    st.idx = st.chunks.length

theorem mapIndex_append_range (chunks : List TextChunk) (idx : Nat) (t : Str) (k : Nat)
    (hm : chunks.map TextChunk.index = List.range chunks.length)
    (hi : idx = chunks.length) :
    (chunks ++ [(⟨idx, t, k⟩ : TextChunk)]).map TextChunk.index =
      List.range (chunks ++ [(⟨idx, t, k⟩ : TextChunk)]).length := by
  subst hi
  rw [List.map_append, hm, List.length_append]
  have h1 : ([(⟨chunks.length, t, k⟩ : TextChunk)]).map TextChunk.index =
      [chunks.length] := rfl
  have h2 : (([⟨chunks.length, t, k⟩] : List TextChunk)).length = 1 := rfl
  rw [h1, h2]
  exact (List.range_succ chunks.length).symm

theorem mapIndex_merge_range (chunks : List TextChunk) (prev : TextChunk) (t : Str) (k : Nat)
    (hm : chunks.map TextChunk.index = List.range chunks.length)
    (heq : chunks.getLast? = some prev) :
    (chunks.dropLast ++ [(⟨prev.index, t, k⟩ : TextChunk)]).map TextChunk.index =
      List.range (chunks.dropLast ++ [(⟨prev.index, t, k⟩ : TextChunk)]).length := by
  have hne : chunks ≠ [] := by
    intro hcon
    rw [hcon] at heq
    cases heq
  obtain ⟨m, hmlen⟩ : ∃ m, chunks.length = m + 1 := by
    cases hl : chunks.length with
    | zero => exact absurd (List.length_eq_zero.mp hl) hne
    | succ m => exact ⟨m, rfl⟩
  have hpi : prev.index = m := by
    have hgl : (chunks.map TextChunk.index).getLast? = some prev.index := by
      rw [List.getLast?_map, heq]
      rfl
    rw [hm, hmlen, List.range_succ, List.getLast?_concat] at hgl
    cases hgl
    rfl
  have hdl : chunks.dropLast.map TextChunk.index = List.range m := by
    rw [List.map_dropLast, hm, hmlen, List.range_succ, List.dropLast_concat]
  rw [List.map_append, hdl, hpi]
  have h1 : ([(⟨m, t, k⟩ : TextChunk)]).map TextChunk.index = [m] := rfl
  rw [h1, ← List.range_succ]
  congr 1
  rw [List.length_append, List.length_dropLast, hmlen, List.length_cons, List.length_nil]
  omega

theorem addPart_idxOk (opts : SmartSplitterOptions) (st : SplitState) (p : Str)
    (h : idxOk st) : idxOk (addPart opts st p) := by
  obtain ⟨hm, hi⟩ := h
  cases hce : st.cs.isEmpty with
  | true =>
      rw [addPart_empty opts st p hce]
      exact ⟨hm, hi⟩
  | false =>
      by_cases hlt : opts.maxChunkSize < st.curLen + strLen p + 1
      · rw [addPart_pos opts st p hce hlt]
        refine ⟨mapIndex_append_range st.chunks st.idx _ _ hm hi, ?_⟩
        show st.idx + 1 = (st.chunks ++ [(⟨st.idx, trim (joinSp st.cs), st.cs.length⟩ : TextChunk)]).length
        rw [List.length_append, List.length_cons, List.length_nil]
        omega
      · rw [addPart_small opts st p hce (by omega)]
        exact ⟨hm, hi⟩

theorem foldl_addPart_idxOk (opts : SmartSplitterOptions) :
    ∀ (parts : List Str) (st), idxOk st → idxOk (parts.foldl (addPart opts) st) := by
  intro parts
  induction parts with
  | nil =>
      intro st h
      exact h
  | cons p ps ih =>
      intro st h
      rw [List.foldl_cons]
      exact ih _ (addPart_idxOk opts st p h)

theorem processSentence_idxOk (opts : SmartSplitterOptions) (st : SplitState)
    (sb : Str × Bool) (h : idxOk st) : idxOk (processSentence opts st sb) := by
  obtain ⟨sentence, pb⟩ := sb
  rw [processSentence]
  have h1 := foldl_addPart_idxOk opts (splitLongSentence opts.maxChunkSize sentence) st h
  obtain ⟨hm, hi⟩ := h1
  split
  · refine ⟨mapIndex_append_range _ _ _ _ hm hi, ?_⟩
    show _ + 1 = (_ ++ [(⟨_, _, _⟩ : TextChunk)]).length
    rw [List.length_append, List.length_cons, List.length_nil]
    omega
  · exact ⟨hm, hi⟩

theorem foldl_processSentence_idxOk (opts : SmartSplitterOptions) :
    ∀ (l : List (Str × Bool)) (st), idxOk st →
      idxOk (l.foldl (processSentence opts) st) := by
  intro l
  induction l with
  | nil =>
      intro st h
      exact h
  | cons sb l2 ih =>
      intro st h
      rw [List.foldl_cons]
      exact ih _ (processSentence_idxOk opts st sb h)

theorem finalizeChunks_idx (opts : SmartSplitterOptions) (st : SplitState)
    (h : idxOk st) :
    (finalizeChunks opts st).map TextChunk.index =
      List.range (finalizeChunks opts st).length := by
  obtain ⟨hm, hi⟩ := h
  rw [finalizeChunks]
  dsimp only
  split
  · exact hm
  · split
    · split
      · rename_i prev heq
        split
        · exact mapIndex_merge_range st.chunks prev _ _ hm heq
        · exact mapIndex_append_range st.chunks st.idx _ _ hm hi
      · exact mapIndex_append_range st.chunks st.idx _ _ hm hi
    · exact mapIndex_append_range st.chunks st.idx _ _ hm hi

theorem addPart_cs_ne_nil (opts : SmartSplitterOptions) (st : SplitState) (p : Str) :
    (addPart opts st p).cs ≠ [] := by
  cases hce : st.cs.isEmpty with
  | true =>
      rw [addPart_empty opts st p hce]
      simp
  | false =>
      by_cases hlt : opts.maxChunkSize < st.curLen + strLen p + 1
      · rw [addPart_pos opts st p hce hlt]
        simp
      · rw [addPart_small opts st p hce (by omega)]
        simp

theorem foldl_addPart_cs_ne_nil (opts : SmartSplitterOptions) :
    ∀ (parts : List Str) (st), parts ≠ [] →
      (parts.foldl (addPart opts) st).cs ≠ [] := by
  intro parts
  induction parts with
  | nil =>
      intro st h
      exact absurd rfl h
  | cons p ps ih =>
      intro st _
      rw [List.foldl_cons]
      cases ps with
      | nil =>
          rw [List.foldl_nil]
          exact addPart_cs_ne_nil opts st p
      | cons q qs => exact ih _ (by simp)

theorem processSentence_progress (opts : SmartSplitterOptions) (st : SplitState)
    (sb : Str × Bool) (hp : splitLongSentence opts.maxChunkSize sb.1 ≠ []) :
    (processSentence opts st sb).chunks ≠ [] ∨ (processSentence opts st sb).cs ≠ [] := by
  obtain ⟨sentence, pb⟩ := sb
  rw [processSentence]
  split
  · left
    simp
  · right
    exact foldl_addPart_cs_ne_nil opts _ st hp

theorem finalizeChunks_ne_nil (opts : SmartSplitterOptions) (st : SplitState)
    (h : st.chunks ≠ [] ∨ st.cs ≠ []) : finalizeChunks opts st ≠ [] := by
  rw [finalizeChunks]
  dsimp only
  split
  · rename_i hce
    rcases h with h1 | h2
    · exact h1
    · exact absurd (List.isEmpty_iff.mp hce) h2
  · split
    · split
      · split
        · simp
        · simp
      · simp
    · simp

theorem allSentences_ne_nil (text : Str) (htrim : trim text ≠ []) :
    buildSentences (tokenizeParagraphs text) ≠ [] := by
  apply buildSentences_ne_nil _ (tokenizeParagraphs_ne_nil text htrim)
  intro p hp
  obtain ⟨htp, hpne⟩ := tokenizeParagraphs_mem text p hp
  apply tokenizeSentences_ne_nil
  rw [htp]
  exact hpne

theorem buildSentences_good (text : Str) (s : Str) (b : Bool)
    (h : (s, b) ∈ buildSentences (tokenizeParagraphs text)) :
    ∃ ch, s.getLast? = some ch ∧ jsIsSpace ch = false := by
  obtain ⟨p, _, hs⟩ := buildSentences_mem _ s b h
  exact tokenizeSentences_last p s hs

theorem smartSplitText_ne_nil (text : Str) (opts : SmartSplitterOptions)
    (htr : trim text ≠ []) : smartSplitText text opts ≠ [] := by
  rw [smartSplitText]
  dsimp only
  rw [if_neg (fun hcon => htr (List.isEmpty_iff.mp hcon))]
  split
  · simp
  · rename_i hsne
    apply finalizeChunks_ne_nil
    have hLne : buildSentences (tokenizeParagraphs text) ≠ [] := by
      intro hcon
      apply hsne
      rw [hcon]
      rfl
    have hdec := List.dropLast_append_getLast hLne
    rw [← hdec, List.foldl_append, List.foldl_cons, List.foldl_nil]
    apply processSentence_progress
    have hmem := List.getLast_mem hLne
    obtain ⟨ch, hch, hws⟩ := buildSentences_good text
      ((buildSentences (tokenizeParagraphs text)).getLast hLne).1
      ((buildSentences (tokenizeParagraphs text)).getLast hLne).2
      (by rw [Prod.mk.eta]; exact hmem)
    exact splitLongSentence_ne_nil opts.maxChunkSize _ ch hch hws

/-! ## Claim C1 and C9 -/

/-- C1: counterexample. With `maxChunkSize = 10`, `overlapSentences = 1` and
`minChunkSize = 1`, the text `"Aaaaaaaaa. Bbbbbbbbb. Ccccccccc."` produces a
non-final chunk of length 21, which exceeds both `maxChunkSize` and
`maxChunkSize × 1.2` (`10 * 21 > 12 * 10`): the sentence-overlap path, not
only the final merge, can push a chunk past the bound. -/
theorem claim1_counterexample :
    ∃ c ∈ (smartSplitText ("Aaaaaaaaa. Bbbbbbbbb. Ccccccccc.".data)
        ⟨10, 1, 1⟩).dropLast,
      12 * 10 < 10 * strLen c.text := by
  have heval : smartSplitText ("Aaaaaaaaa. Bbbbbbbbb. Ccccccccc.".data) ⟨10, 1, 1⟩ =
      [⟨0, "Aaaaaaaaa.".data, 1⟩, ⟨1, "Aaaaaaaaa. Bbbbbbbbb.".data, 2⟩,
        ⟨2, "Bbbbbbbbb. Ccccccccc.".data, 2⟩] := by
    with_unfolding_all rfl
  rw [heval]
  refine ⟨⟨1, "Aaaaaaaaa. Bbbbbbbbb.".data, 2⟩, ?_, ?_⟩
  · have hdl : ([⟨0, "Aaaaaaaaa.".data, 1⟩, ⟨1, "Aaaaaaaaa. Bbbbbbbbb.".data, 2⟩,
        ⟨2, "Bbbbbbbbb. Ccccccccc.".data, 2⟩] : List TextChunk).dropLast =
        [⟨0, "Aaaaaaaaa.".data, 1⟩, ⟨1, "Aaaaaaaaa. Bbbbbbbbb.".data, 2⟩] := rfl
    rw [hdl]
    exact List.mem_cons_of_mem _ (List.mem_cons_self _ _)
  · have hs : strLen ((⟨1, "Aaaaaaaaa. Bbbbbbbbb.".data, 2⟩ : TextChunk).text) = 21 := by
      with_unfolding_all rfl
    rw [hs]
    omega

/-- C1 (amended): with a positive `maxChunkSize` and sentence overlap
disabled (`overlapSentences = 0`), every chunk of `smartSplitText` has text
length at most `maxChunkSize × 1.2` (as `10·len ≤ 12·max`), and every chunk
other than the final one has text length at most `maxChunkSize`. -/
theorem claim1_amended (text : Str) (opts : SmartSplitterOptions)
    (hmax : 1 ≤ opts.maxChunkSize) (hov : opts.overlapSentences = 0) :
    (∀ c ∈ smartSplitText text opts, 10 * strLen c.text ≤ 12 * opts.maxChunkSize) ∧
      (∀ c ∈ (smartSplitText text opts).dropLast, strLen c.text ≤ opts.maxChunkSize) := by
  rw [smartSplitText]
  dsimp only
  split
  · simp
  · rename_i hte
    split
    · rename_i hse
      exfalso
      exact allSentences_ne_nil text (fun hcon => hte (List.isEmpty_iff.mpr hcon))
        (List.isEmpty_iff.mp hse)
    · exact finalizeChunks_bounds opts _
        (foldl_processSentence_chunksOk opts hov hmax _ _
          ⟨fun c hc => absurd hc (List.not_mem_nil c), rfl, Nat.zero_le _⟩)

theorem claim1_amended_witness :
    (∀ c ∈ smartSplitText ("Aa. Bb.".data) ⟨10, 0, 1⟩,
        10 * strLen c.text ≤ 12 * 10) ∧
      (∀ c ∈ (smartSplitText ("Aa. Bb.".data) ⟨10, 0, 1⟩).dropLast,
        strLen c.text ≤ 10) :=
  claim1_amended ("Aa. Bb.".data) ⟨10, 0, 1⟩ (by decide) rfl

set_option maxRecDepth 100000 in
/-- C9: counterexample. With the default options, a 1605-character input made
of semicolon-separated runs of `'a'`s, spaces and `'b'`s produces a chunk
(index 2) whose text is empty: `smartSplitText` can emit empty-text chunks
for non-empty, non-whitespace input. -/
theorem claim9_counterexample :
    ∃ c ∈ smartSplitText
        (List.replicate 400 'a' ++ ';' :: ' ' :: List.replicate 400 ' ' ++
          ';' :: ' ' :: List.replicate 400 ' ' ++ ';' :: ' ' :: List.replicate 399 'b')
        DEFAULT_OPTIONS, c.text = [] := by
  have h : (smartSplitText
      (List.replicate 400 'a' ++ ';' :: ' ' :: List.replicate 400 ' ' ++
        ';' :: ' ' :: List.replicate 400 ' ' ++ ';' :: ' ' :: List.replicate 399 'b')
      DEFAULT_OPTIONS).get? 2 = some ⟨2, [], 2⟩ := by
    with_unfolding_all rfl
  exact ⟨⟨2, [], 2⟩, List.get?_mem h, rfl⟩

/-- C9 (amended): `smartSplitText` is total; it returns the empty sequence
exactly when the input trims to nothing, and the returned chunks always carry
consecutive indices `0, 1, 2, …` — but chunks with empty text can occur (see
the counterexample), so the non-empty-text part of the claim is dropped. -/
theorem claim9_amended (text : Str) (opts : SmartSplitterOptions) :
    (smartSplitText text opts = [] ↔ trim text = []) ∧
      (smartSplitText text opts).map TextChunk.index =
        List.range (smartSplitText text opts).length := by
  constructor
  · constructor
    · intro h
      by_contra htr
      exact smartSplitText_ne_nil text opts htr h
    · intro h
      rw [smartSplitText, if_pos]
      rw [h]
      rfl
  · rw [smartSplitText]
    dsimp only
    split
    · simp
    · split
      · rfl
      · exact finalizeChunks_idx opts _
          (foldl_processSentence_idxOk opts _ _ ⟨rfl, rfl⟩)

end LeoSpec